import Mathlib

/-!
# Verification of the Minesweeper AI knowledge-base engine

Shallow embedding of `src/minesweeper.py` (classes `Sentence` and
`MinesweeperAI`) and proofs about it.

Modelling conventions:
* A board cell `(row, col)` is a pair of integers.
* A Python `set` of cells is a `Finset Cell`; the knowledge base, a Python
  `list` of `Sentence` objects, is a `List Sentence` (order and multiplicity
  matter: the code uses `list.append`, `list.extend` and `list.remove`).
* `Sentence.__eq__` compares both the cell set and the count, so Python's
  `list.remove` (first match by `==`) is `List.erase` with the derived
  `DecidableEq`.
* Loops that call `mark_safe`/`mark_mine` once per element of a Python set
  are modelled by their order-independent net effect on each sentence
  (removing a whole `Finset` of cells at once); single-cell `mark_*` calls
  are modelled one-to-one.
* The `while not done:` deduction loop of `add_knowledge` is modelled with
  explicit fuel (`deductionLoop`), returning `none` iff the fuel runs out
  before the loop's own exit condition fires; Python's `random.choice` and
  the arbitrary iteration order of `set` are modelled by a deterministic
  choice (`pickCell`, lexicographic minimum) of a member of the same set.
-/

namespace MinesweeperAI

/-- A board cell `(row, col)`, exactly the Python 2-tuples of ints. -/
abbrev Cell := ℤ × ℤ

/-- `class Sentence`: "exactly `count` of `cells` are mines". -/
structure Sentence where
  cells : Finset Cell
  count : ℤ
  deriving DecidableEq

/-- `Sentence.__eq__`: `self.cells == other.cells and self.count == other.count`. -/
def sentenceEq (a b : Sentence) : Bool :=
  a.cells == b.cells && a.count == b.count

/-- `Sentence.known_mines`: `self.cells` if `len(self.cells) == self.count`, else `set()`. -/
def Sentence.known_mines (s : Sentence) : Finset Cell :=
  if (s.cells.card : ℤ) = s.count then s.cells else ∅

/-- `Sentence.known_safes`: `self.cells` if `not self.count`, else `set()`. -/
def Sentence.known_safes (s : Sentence) : Finset Cell :=
  if s.count = 0 then s.cells else ∅

/-- `Sentence.mark_mine`: if `cell in self.cells`, remove it and decrement `count`. -/
def Sentence.mark_mine (s : Sentence) (c : Cell) : Sentence :=
  if c ∈ s.cells then ⟨s.cells.erase c, s.count - 1⟩ else s

/-- `Sentence.mark_safe`: if `cell in self.cells`, remove it (count unchanged). -/
def Sentence.mark_safe (s : Sentence) (c : Cell) : Sentence :=
  if c ∈ s.cells then ⟨s.cells.erase c, s.count⟩ else s

/-- Net effect on a sentence of calling `mark_safe` once per cell of the set
`cs` (the per-cell calls commute, so the net effect is removing `cs`). -/
def Sentence.markSafeSet (s : Sentence) (cs : Finset Cell) : Sentence :=
  ⟨s.cells \ cs, s.count⟩

/-- Net effect on a sentence of calling `mark_mine` once per cell of the set
`cs`: each call that finds its cell removes it and decrements the count. -/
def Sentence.markMineSet (s : Sentence) (cs : Finset Cell) : Sentence :=
  ⟨s.cells \ cs, s.count - ((s.cells ∩ cs).card : ℤ)⟩

/-- State of `class MinesweeperAI`. -/
structure AI where
  height : ℤ
  width : ℤ
  moves_made : Finset Cell
  mines : Finset Cell
  safes : Finset Cell
  knowledge : List Sentence
  deriving DecidableEq

/-- `MinesweeperAI.__init__`. -/
def AI.init (h w : ℤ) : AI := ⟨h, w, ∅, ∅, ∅, []⟩

/-- `MinesweeperAI.mark_mine`: add to `self.mines`, cascade into every sentence. -/
def AI.mark_mine (ai : AI) (c : Cell) : AI :=
  { ai with mines := insert c ai.mines,
            knowledge := ai.knowledge.map (·.mark_mine c) }

/-- `MinesweeperAI.mark_safe`: add to `self.safes`, cascade into every sentence. -/
def AI.mark_safe (ai : AI) (c : Cell) : AI :=
  { ai with safes := insert c ai.safes,
            knowledge := ai.knowledge.map (·.mark_safe c) }

/-- Net effect of calling `MinesweeperAI.mark_safe` once per cell of `cs`. -/
def AI.markSafeSet (ai : AI) (cs : Finset Cell) : AI :=
  { ai with safes := ai.safes ∪ cs,
            knowledge := ai.knowledge.map (·.markSafeSet cs) }

/-- Net effect of calling `MinesweeperAI.mark_mine` once per cell of `cs`. -/
def AI.markMineSet (ai : AI) (cs : Finset Cell) : AI :=
  { ai with mines := ai.mines ∪ cs,
            knowledge := ai.knowledge.map (·.markMineSet cs) }

/-- The neighbour computation of `add_knowledge`: all `(i, j)` in the 3×3 box
around `cell` with `(i != cell[0] or j != cell[1])` and `0 <= i < height`,
`0 <= j < width`. -/
def neighbors (h w : ℤ) (c : Cell) : Finset Cell :=
  (Finset.product (Finset.Icc (c.1 - 1) (c.1 + 1)) (Finset.Icc (c.2 - 1) (c.2 + 1))).filter
    (fun p => (p.1 ≠ c.1 ∨ p.2 ≠ c.2) ∧ 0 ≤ p.1 ∧ p.1 < h ∧ 0 ≤ p.2 ∧ p.2 < w)

/-- Lines 201–227 of `add_knowledge`, before the deduction loop: record the
move, mark the cell safe, build the neighbour sentence, prune it against the
current `safes` and `mines`, and append it (unconditionally) to `knowledge`. -/
def addKnowledgeInsert (ai : AI) (cell : Cell) (count : ℤ) : AI :=
  let a1 : AI := { ai with moves_made := insert cell ai.moves_made }
  let a2 := a1.mark_safe cell
  let base : Sentence := ⟨neighbors a2.height a2.width cell, count⟩
  let pruned := (base.markSafeSet a2.safes).markMineSet a2.mines
  { a2 with knowledge := a2.knowledge ++ [pruned] }

/-- One step of the resolution scan (lines 240–256): examine the sentence at
index `i` (in its current, possibly already cascaded state), mark its
`known_safes`/`known_mines` into the whole knowledge base, and record whether
this sentence is queued for removal.  Returns the updated state and the flag
list for indices `i, i+1, …` (the recursion is driven by the fuel `n`, which
the caller sets to the list length; marking never changes the list length). -/
def resolveScan : ℕ → ℕ → AI → AI × List Bool
  | 0, _, ai => (ai, [])
  | n + 1, i, ai =>
    match ai.knowledge[i]? with
    | none => (ai, [])
    | some s =>
      let fs := s.known_safes
      let ms := s.known_mines
      let ai1 := (ai.markSafeSet fs).markMineSet ms
      let flag : Bool := decide (fs ≠ ∅) || decide (ms ≠ ∅) || decide (s.cells = ∅)
      let rest := resolveScan n (i + 1) ai1
      (rest.1, flag :: rest.2)

/-- The resolution pass of the deduction loop (lines 237–260): scan all
sentences marking known safes/mines, then remove each queued sentence from the
knowledge list (`list.remove`: first element equal by `__eq__`, i.e. by value,
in queue order; the queued objects are compared at their final, post-cascade
values).  The boolean is `true` iff anything was queued (`done` was cleared). -/
def resolvePhase (ai : AI) : AI × Bool :=
  let r := resolveScan ai.knowledge.length 0 ai
  let queue := ((r.1.knowledge.zip r.2).filter (·.2)).map (·.1)
  let k := queue.foldl (fun l s => l.erase s) r.1.knowledge
  ({ r.1 with knowledge := k }, r.2.any id)

/-- The derived sentence of the subset rule for the pair `(s, s2)`:
`Sentence(sentence2.cells - sentence.cells, sentence2.count - sentence.count)`. -/
def deriveSentence (s s2 : Sentence) : Sentence :=
  ⟨s2.cells \ s.cells, s2.count - s.count⟩

/-- The subset pass pair scan (lines 266–283): for every ordered pair of
sentences whose cell sets differ with `s.cells ⊆ s2.cells`, produce the
derived sentence together with `s2`, queued for removal, in loop order. -/
def subsetPairs (l : List Sentence) : List (Sentence × Sentence) :=
  l.flatMap (fun s => l.filterMap (fun s2 =>
    if s.cells ≠ s2.cells ∧ s.cells ⊆ s2.cells then
      some (deriveSentence s s2, s2)
    else none))

/-- The subset pass (lines 262–293): scan pairs, extend the knowledge list
with all derived sentences, then remove queued sentences (`list.remove`
wrapped in `try/except ValueError`: removing an absent value is a no-op,
which is exactly `List.erase`).  The boolean is `true` iff any pair fired. -/
def subsetPhase (ai : AI) : AI × Bool :=
  let ps := subsetPairs ai.knowledge
  let k1 := ai.knowledge ++ ps.map Prod.fst
  let k2 := (ps.map Prod.snd).foldl (fun l s => l.erase s) k1
  ({ ai with knowledge := k2 }, !ps.isEmpty)

/-- One full iteration of the `while not done:` loop: resolution pass, then
subset pass.  The boolean is `true` iff `done` was cleared during this pass. -/
def passStep (ai : AI) : AI × Bool :=
  let r := resolvePhase ai
  let s := subsetPhase r.1
  (s.1, r.2 || s.2)

/-- The `while not done:` loop of `add_knowledge`, with explicit fuel:
`none` means the fuel was exhausted before the loop exited. -/
def deductionLoop : ℕ → AI → Option AI
  | 0, _ => none
  | n + 1, ai =>
    let p := passStep ai
    if p.2 then deductionLoop n p.1 else some p.1

/-- `MinesweeperAI.add_knowledge(cell, count)` (lines 186–293). -/
def addKnowledge (fuel : ℕ) (ai : AI) (cell : Cell) (count : ℤ) : Option AI :=
  deductionLoop fuel (addKnowledgeInsert ai cell count)

/-- A deterministic member of a finite set of cells (lexicographic minimum),
modelling an unspecified choice from a Python `set` (`list(s)[0]`,
`random.choice(list(s))`). -/
def pickCell (s : Finset Cell) : Option Cell :=
  if h : s.Nonempty then
    some (ofLex ((s.image (toLex : Cell → Lex Cell)).min' (h.image _)))
  else none

/-- `MinesweeperAI.make_safe_move`: a member of `safes - moves_made`, or none. -/
def makeSafeMove (ai : AI) : Option Cell :=
  pickCell (ai.safes \ ai.moves_made)

/-- The candidate set built by `make_random_move` (lines 320–328): note the
loops run `for i in range(self.width): for j in range(self.height)`, so the
set is `{(i, j) : i < width, j < height}`, then both `moves_made` and `mines`
are removed. -/
def randomMoveCandidates (ai : AI) : Finset Cell :=
  (((Finset.Ico 0 ai.width).product (Finset.Ico 0 ai.height)) \ ai.moves_made) \ ai.mines

/-- `MinesweeperAI.make_random_move`: a random member of the candidates, or none. -/
def makeRandomMove (ai : AI) : Option Cell :=
  pickCell (randomMoveCandidates ai)

/-- The set of in-bounds grid cells `(row, col)` with `0 ≤ row < height`,
`0 ≤ col < width`, as used by the board and by `add_knowledge`'s bounds
checks (the spec's "full grid"). -/
def gridCells (h w : ℤ) : Finset Cell :=
  (Finset.Ico 0 h).product (Finset.Ico 0 w)

/-- `Minesweeper.nearby_mines` for a mine placement `P`: the number of mines
within one row and column of `cell`, excluding the cell itself and cells out
of bounds. -/
def nearbyMines (P : Finset Cell) (h w : ℤ) (c : Cell) : ℤ :=
  (((neighbors h w c)).filter (· ∈ P)).card

/-- A valid hint for placement `P`: the board supplies `nearby_mines(cell)`
only for cells that are not themselves mines. -/
def ValidHint (P : Finset Cell) (h w : ℤ) (c : Cell) (n : ℤ) : Prop :=
  c ∉ P ∧ c ∈ gridCells h w ∧ n = nearbyMines P h w c

/-- Process a sequence of hints through `add_knowledge`, all calls with the
same fuel. -/
def runHints (fuel : ℕ) : List (Cell × ℤ) → AI → Option AI
  | [], ai => some ai
  | (c, n) :: rest, ai => (addKnowledge fuel ai c n).bind (runHints fuel rest)

/-- A sentence is sound for a mine placement `P` when its count is exactly
the number of its cells that are mines of `P`. -/
def SoundS (P : Finset Cell) (s : Sentence) : Prop :=
  s.count = ((s.cells.filter (· ∈ P)).card : ℤ)

/-- Soundness of the whole AI state for a placement `P`: every held sentence
is sound, every confirmed mine is a mine of `P`, and no confirmed-safe cell
is a mine of `P`.  This holds along any run fed with valid hints. -/
def Sound (P : Finset Cell) (ai : AI) : Prop :=
  (∀ s ∈ ai.knowledge, SoundS P s) ∧ ai.mines ⊆ P ∧ ∀ c ∈ ai.safes, c ∉ P

/-- The pruning invariant: every held sentence's cell set is disjoint from
the certainty sets `mines ∪ safes`. -/
def Pruned (ai : AI) : Prop :=
  ∀ s ∈ ai.knowledge, ∀ c ∈ s.cells, c ∉ ai.mines ∧ c ∉ ai.safes

/-- A concrete knowledge-base state used to analyse one fixpoint pass: five
sentences over the cells `(0,0) … (1,2)`, all sound for the placement with
mines at `(0,0)` and `(1,0)`. -/
def C3state : AI :=
  ⟨3, 3, ∅, ∅, ∅,
    [⟨{(0,0), (0,1)}, 1⟩,
     ⟨{(0,0), (0,1), (0,2), (1,0), (1,1), (1,2)}, 2⟩,
     ⟨{(0,2), (1,0), (1,1), (1,2)}, 1⟩,
     ⟨{(0,2), (1,0)}, 1⟩,
     ⟨{(1,0), (1,1)}, 1⟩]⟩



/-- The multiset of sentence sizes of a knowledge list: the termination
measure of the deduction fixpoint is this multiset under the
Dershowitz–Manna / reverse-lexicographic ordering. -/
def sizes (l : List Sentence) : Multiset ℕ :=
  (l.map (fun s => s.cells.card) : List ℕ)

/-- The sizes multiset packaged as a finitely supported count function on
`ℕᵒᵈ`, ordered lexicographically: comparisons are decided at the *largest*
size whose multiplicity differs.  This order is well-founded
(`Finsupp.Lex.wellFoundedLT`), which drives the termination proof. -/
def toMeasure (m : Multiset ℕ) : Lex (ℕᵒᵈ →₀ ℕ) :=
  toLex (Finsupp.equivMapDomain (OrderDual.toDual) (Multiset.toFinsupp m))

/-- A sentence value `v` is "fired with a nonempty subset" in list `l` when
some sentence of `l` is a strict subset of it whose derived sentence differs
from `v` itself; every copy of such a value is removed by the subset pass. -/
def firedNe (l : List Sentence) (v : Sentence) : Prop :=
  ∃ s ∈ l, (s.cells ≠ v.cells ∧ s.cells ⊆ v.cells) ∧ deriveSentence s v ≠ v

instance firedNeDecidable (l : List Sentence) : DecidablePred (firedNe l) := fun _ =>
  List.decidableBEx _ l

/-! ## Basic facts about `pickCell` -/

theorem pickCell_eq_none {s : Finset Cell} : pickCell s = none ↔ s = ∅ := by
  rw [pickCell]
  split
  · next h => simp [Finset.nonempty_iff_ne_empty.mp h]
  · next h => simp [Finset.not_nonempty_iff_eq_empty.mp h]

theorem pickCell_mem {s : Finset Cell} {c : Cell} (h : pickCell s = some c) : c ∈ s := by
  rw [pickCell] at h
  split at h
  · next hs =>
    have hmem := (s.image (toLex : Cell → Lex Cell)).min'_mem (hs.image _)
    rcases Finset.mem_image.mp hmem with ⟨a, ha, hEq⟩
    have hc : ofLex ((s.image (toLex : Cell → Lex Cell)).min' (hs.image _)) = c :=
      Option.some.inj h
    have hac : a = c := by rw [← hc, ← hEq]; rfl
    rwa [← hac]
  · exact absurd h (by simp)


/-! ## C7: sentence equality -/

/-- C7 counterexample: two sentences with identical cell sets but different
counts are *not* equal under `Sentence.__eq__` (which also compares counts),
refuting "two Sentence values are equal iff their cell sets are equal,
regardless of their counts". -/
theorem claim7_counterexample :
    (Sentence.mk {((0:ℤ), (0:ℤ))} 0).cells = (Sentence.mk {((0:ℤ), (0:ℤ))} 1).cells ∧
    sentenceEq (Sentence.mk {((0:ℤ), (0:ℤ))} 0) (Sentence.mk {((0:ℤ), (0:ℤ))} 1) = false ∧
    Sentence.mk {((0:ℤ), (0:ℤ))} 0 ≠ Sentence.mk {((0:ℤ), (0:ℤ))} 1 := by
  decide

/-- C7 (amended): two Sentence values are equal under `Sentence.__eq__` iff
both their cell sets and their counts are equal. -/
theorem claim7_equality_iff (a b : Sentence) :
    sentenceEq a b = true ↔ a.cells = b.cells ∧ a.count = b.count := by
  simp [sentenceEq]

/-! ## C9: known_safes / known_mines -/

/-- C9: if `count = 0` then `known_safes` is the whole cell set and
`known_mines` is empty; if the cell set is nonempty and `count` equals its
size then `known_mines` is the whole cell set and `known_safes` is empty. -/
theorem claim9_known_sets (s : Sentence) :
    (s.count = 0 → s.known_safes = s.cells ∧ s.known_mines = ∅) ∧
    (s.cells ≠ ∅ → s.count = (s.cells.card : ℤ) →
      s.known_mines = s.cells ∧ s.known_safes = ∅) := by
  constructor
  · intro h
    refine ⟨by simp [Sentence.known_safes, h], ?_⟩
    rw [Sentence.known_mines]
    split
    · next hc =>
      have h0 : s.cells.card = 0 := by
        have : (s.cells.card : ℤ) = 0 := by rw [hc, h]
        exact_mod_cast this
      exact Finset.card_eq_zero.mp h0
    · rfl
  · intro hne hc
    have hpos : 0 < s.cells.card :=
      Finset.card_pos.mpr (Finset.nonempty_iff_ne_empty.mpr hne)
    refine ⟨by rw [Sentence.known_mines, if_pos hc.symm], ?_⟩
    rw [Sentence.known_safes, if_neg]
    intro h0
    rw [h0] at hc
    have : s.cells.card = 0 := by exact_mod_cast hc.symm
    omega

/-- Witness for C9 at concrete sentences. -/
theorem claim9_known_sets_witness :
    (Sentence.known_safes ⟨{((0:ℤ), (0:ℤ))}, 0⟩ = {((0:ℤ), (0:ℤ))} ∧
      Sentence.known_mines ⟨{((0:ℤ), (0:ℤ))}, 0⟩ = ∅) ∧
    (Sentence.known_mines ⟨{((0:ℤ), (0:ℤ))}, 1⟩ = {((0:ℤ), (0:ℤ))} ∧
      Sentence.known_safes ⟨{((0:ℤ), (0:ℤ))}, 1⟩ = ∅) :=
  ⟨(claim9_known_sets ⟨{((0:ℤ), (0:ℤ))}, 0⟩).1 (by decide),
   (claim9_known_sets ⟨{((0:ℤ), (0:ℤ))}, 1⟩).2 (by decide) (by decide)⟩

/-! ## C6: make_random_move builds its candidate set transposed -/

/-- C6: on a 1×2 grid with both real cells already played and no known mines,
the set "all in-bounds cells minus moves made minus mines" is empty, so the
claim requires `none`; but the code builds its candidate set with
`for i in range(width): for j in range(height)` — transposed — and returns
`(1, 0)`, an out-of-bounds cell. -/
theorem claim6_random_move_bug :
    makeRandomMove ⟨1, 2, {(0,0), (0,1)}, ∅, ∅, []⟩ = some (1, 0) ∧
    ((gridCells 1 2) \ ({(0,0), (0,1)} : Finset Cell)) \ (∅ : Finset Cell) = ∅ ∧
    (1, 0) ∉ gridCells 1 2 ∧
    randomMoveCandidates ⟨1, 2, {(0,0), (0,1)}, ∅, ∅, []⟩ = {(1, 0)} := by
  decide

/-! ## C8: make_safe_move -/

/-- C8 counterexample: for the arbitrary knowledge-base state with
`safes = mines = {(0,0)}`, `make_safe_move` returns `(0,0)`, a member of
`confirmedMines` — so "for every KnowledgeBase state … the returned cell is
never in confirmedMines" fails; it requires the disjointness invariant. -/
theorem claim8_counterexample :
    makeSafeMove ⟨2, 2, ∅, {(0,0)}, {(0,0)}, []⟩ = some (0, 0) ∧
    (0, 0) ∈ (AI.mk 2 2 ∅ {(0,0)} {(0,0)} []).mines := by
  decide

/-- C8 (amended): `make_safe_move` returns `none` exactly when
`safes \ moves_made` is empty, otherwise a member of that set (hence never a
cell in `moves_made`); and whenever `mines` and `safes` are disjoint — as in
every valid run — the returned cell is not in `mines`.  (The function is a
pure read by construction: it is a function of the state only.) -/
theorem claim8_safe_move (ai : AI) :
    (makeSafeMove ai = none ↔ ai.safes \ ai.moves_made = ∅) ∧
    ∀ c : Cell, makeSafeMove ai = some c →
      c ∈ ai.safes ∧ c ∉ ai.moves_made ∧ (ai.mines ∩ ai.safes = ∅ → c ∉ ai.mines) := by
  constructor
  · exact pickCell_eq_none
  · intro c hc
    have hm := pickCell_mem hc
    have h1 : c ∈ ai.safes := (Finset.mem_sdiff.mp hm).1
    have h2 : c ∉ ai.moves_made := (Finset.mem_sdiff.mp hm).2
    refine ⟨h1, h2, fun hd hcm => ?_⟩
    have : c ∈ ai.mines ∩ ai.safes := Finset.mem_inter.mpr ⟨hcm, h1⟩
    rw [hd] at this
    exact absurd this (Finset.not_mem_empty c)

/-- Witness for C8 at a concrete state with `safes = {(0,0)}`. -/
theorem claim8_safe_move_witness :
    ((0:ℤ), (0:ℤ)) ∈ ({(0,0)} : Finset Cell) ∧
    ((0:ℤ), (0:ℤ)) ∉ (∅ : Finset Cell) ∧
    ((0:ℤ), (0:ℤ)) ∉ (∅ : Finset Cell) := by
  have h := (claim8_safe_move ⟨2, 2, ∅, ∅, {(0,0)}, []⟩).2 (0, 0) (by decide)
  exact ⟨h.1, h.2.1, h.2.2 (by decide)⟩

/-! ## C2: no-duplicate invariant fails -/

/-- C2 counterexample: on a 2×2 grid, after `add_knowledge((0,0), 1)` then
`add_knowledge((0,1), 1)` the knowledge base holds **two** sentences with the
identical cell set `{(1,0), (1,1)}` — `add_knowledge` appends without any
duplicate check. -/
theorem claim2_counterexample :
    (runHints 1 [((0,0), 1), ((0,1), 1)] (AI.init 2 2)).map
        (fun ai => ai.knowledge.map Sentence.cells)
      = some [{(1,0), (1,1)}, {(1,0), (1,1)}] := by
  decide

/-- C2 (amended): the sentence insertion in `add_knowledge` is unconditional —
the pruned new sentence is always appended to the knowledge list, with no
check whether a sentence with the same cell set is already present (so
duplicates can coexist, as the counterexample shows). -/
theorem claim2_unconditional_insert (ai : AI) (c : Cell) (n : ℤ) :
    ∃ s : Sentence,
      (addKnowledgeInsert ai c n).knowledge
        = (AI.mark_safe { ai with moves_made := insert c ai.moves_made } c).knowledge ++ [s] :=
  ⟨_, rfl⟩

/-! ## C5: add_knowledge performs no validation -/

/-- C5 counterexample: calling `add_knowledge` on a fresh 8×8 AI with the
out-of-bounds cell `(100,100)` and the out-of-range count `50` raises nothing:
it returns normally with the move recorded and the cell marked safe. -/
theorem claim5_counterexample :
    addKnowledge 2 (AI.init 8 8) (100, 100) 50
      = some ⟨8, 8, {(100,100)}, ∅, {(100,100)}, []⟩ := by
  decide

theorem resolveScan_moves_safes : ∀ (n i : ℕ) (ai : AI),
    (resolveScan n i ai).1.moves_made = ai.moves_made ∧
      ai.safes ⊆ (resolveScan n i ai).1.safes
  | 0, _, _ => ⟨rfl, Finset.Subset.refl _⟩
  | n + 1, i, ai => by
    rw [resolveScan]
    cases hg : ai.knowledge[i]? with
    | none => exact ⟨rfl, Finset.Subset.refl _⟩
    | some s =>
      have ih := resolveScan_moves_safes n (i + 1)
        ((ai.markSafeSet s.known_safes).markMineSet s.known_mines)
      exact ⟨ih.1, Finset.Subset.trans Finset.subset_union_left ih.2⟩

theorem resolvePhase_moves_safes (ai : AI) :
    (resolvePhase ai).1.moves_made = ai.moves_made ∧
      ai.safes ⊆ (resolvePhase ai).1.safes :=
  resolveScan_moves_safes ai.knowledge.length 0 ai

theorem subsetPhase_moves_safes (ai : AI) :
    (subsetPhase ai).1.moves_made = ai.moves_made ∧ (subsetPhase ai).1.safes = ai.safes :=
  ⟨rfl, rfl⟩

theorem passStep_moves_safes (ai : AI) :
    (passStep ai).1.moves_made = ai.moves_made ∧ ai.safes ⊆ (passStep ai).1.safes := by
  have h1 := resolvePhase_moves_safes ai
  have h2 := subsetPhase_moves_safes (resolvePhase ai).1
  refine ⟨h2.1.trans h1.1, fun x hx => ?_⟩
  have : x ∈ (resolvePhase ai).1.safes := h1.2 hx
  rw [← h2.2] at this
  exact this

theorem deductionLoop_moves_safes : ∀ (fuel : ℕ) (ai ai' : AI),
    deductionLoop fuel ai = some ai' →
    ai'.moves_made = ai.moves_made ∧ ai.safes ⊆ ai'.safes
  | 0, _, _, h => absurd h (by simp [deductionLoop])
  | fuel + 1, ai, ai', h => by
    simp only [deductionLoop] at h
    by_cases hc : (passStep ai).2
    · rw [if_pos hc] at h
      have ih := deductionLoop_moves_safes fuel (passStep ai).1 ai' h
      have hp := passStep_moves_safes ai
      exact ⟨ih.1.trans hp.1, Finset.Subset.trans hp.2 ih.2⟩
    · rw [if_neg hc] at h
      obtain rfl := Option.some.inj h
      exact passStep_moves_safes ai

/-- C5 (amended): `add_knowledge` performs no precondition check whatsoever:
for *any* cell (in- or out-of-bounds), any count and any prior state, whenever
the call returns, the cell has been recorded in `moves_made` and marked safe —
the engine silently proceeds and mutates state instead of failing fast. -/
theorem claim5_no_validation (fuel : ℕ) (ai : AI) (c : Cell) (n : ℤ) (ai' : AI)
    (h : addKnowledge fuel ai c n = some ai') :
    c ∈ ai'.moves_made ∧ c ∈ ai'.safes := by
  have hp := deductionLoop_moves_safes fuel (addKnowledgeInsert ai c n) ai' h
  constructor
  · rw [hp.1]
    exact Finset.mem_insert_self c _
  · exact hp.2 (Finset.mem_insert_self c _)

/-- Witness for C5 at the out-of-bounds input `(100,100)`, count `50`. -/
theorem claim5_no_validation_witness :
    ((100:ℤ), (100:ℤ)) ∈ (AI.mk 8 8 {(100,100)} ∅ {(100,100)} []).moves_made ∧
    ((100:ℤ), (100:ℤ)) ∈ (AI.mk 8 8 {(100,100)} ∅ {(100,100)} []).safes :=
  claim5_no_validation 2 (AI.init 8 8) (100, 100) 50 _ (by decide)

/-! ## C3: the subset rule's derived sentence can vanish within the pass -/

/-- C3 counterexample: in `C3state` (all five sentences sound for the
placement with mines at `(0,0)` and `(1,0)`), the pair `A = {(0,0),(0,1)}=1`,
`B = {(0,0)…(1,2)}=2` has `A.cells ⊊ B.cells`, and the derived sentence is
`{(0,2),(1,0),(1,1),(1,2)}=1`.  After one full fixpoint pass, **no** sentence
with that cell set is present, and the certainty sets are still empty (nothing
was "resolved into the global certainty sets"): the derived sentence was
erased by the same pass's subsumption cleanup, because the queued removal of
the equal-valued sentence `{(0,2),(1,0),(1,1),(1,2)}=1` (itself subsumed
twice) consumed both copies. -/
theorem claim3_counterexample :
    (⟨{(0,0), (0,1)}, 1⟩ : Sentence) ∈ C3state.knowledge ∧
    (⟨{(0,0), (0,1), (0,2), (1,0), (1,1), (1,2)}, 2⟩ : Sentence) ∈ C3state.knowledge ∧
    ({(0,0), (0,1)} : Finset Cell) ⊂ {(0,0), (0,1), (0,2), (1,0), (1,1), (1,2)} ∧
    deriveSentence ⟨{(0,0), (0,1)}, 1⟩ ⟨{(0,0), (0,1), (0,2), (1,0), (1,1), (1,2)}, 2⟩
      = ⟨{(0,2), (1,0), (1,1), (1,2)}, 1⟩ ∧
    (∀ s ∈ C3state.knowledge,
      s.count = ((s.cells.filter (· ∈ ({(0,0), (1,0)} : Finset Cell))).card : ℤ)) ∧
    ({(0,2), (1,0), (1,1), (1,2)} : Finset Cell)
      ∉ (passStep C3state).1.knowledge.map Sentence.cells ∧
    (passStep C3state).1.mines = ∅ ∧ (passStep C3state).1.safes = ∅ := by
  decide

/-- C3 (amended): for any two sentences `A, B` held at the start of the
subset-resolution step with `A.cells ⊊ B.cells`, the sentence
`(B.cells − A.cells, B.count − A.count)` is derived and inserted by that step;
it remains present at the end of the pass unless the same pass's queued
removals erase an equal-valued sentence (and it is never resolved into the
global certainty sets within the same pass, since certainty resolution
precedes subset resolution). -/
theorem claim3_subset_derived (l : List Sentence) (A B : Sentence)
    (hA : A ∈ l) (hB : B ∈ l) (hsub : A.cells ⊂ B.cells) :
    deriveSentence A B ∈ (subsetPairs l).map Prod.fst := by
  apply List.mem_map.mpr
  refine ⟨(deriveSentence A B, B), ?_, rfl⟩
  unfold subsetPairs
  apply List.mem_flatMap.mpr
  refine ⟨A, hA, ?_⟩
  apply List.mem_filterMap.mpr
  refine ⟨B, hB, ?_⟩
  rw [if_pos]
  exact ⟨hsub.ne, hsub.subset⟩

/-- Witness for C3: `{A,B,C}=1` and `{A,B}=1` derive `{C}=0`. -/
theorem claim3_subset_derived_witness :
    deriveSentence ⟨{(0,0), (0,1)}, 1⟩ ⟨{(0,0), (0,1), (0,2)}, 1⟩
      ∈ (subsetPairs
          [⟨{(0,0), (0,1)}, 1⟩, ⟨{(0,0), (0,1), (0,2)}, 1⟩]).map Prod.fst :=
  claim3_subset_derived _ _ _ (by decide) (by decide) (by decide)

/-! ## C10: every held sentence stays disjoint from the certainty sets -/

theorem mark_safe_cells (s : Sentence) (c : Cell) :
    (s.mark_safe c).cells = s.cells.erase c := by
  rw [Sentence.mark_safe]
  split
  · rfl
  · next h => exact (Finset.erase_eq_of_not_mem h).symm

theorem mark_mine_cells (s : Sentence) (c : Cell) :
    (s.mark_mine c).cells = s.cells.erase c := by
  rw [Sentence.mark_mine]
  split
  · rfl
  · next h => exact (Finset.erase_eq_of_not_mem h).symm

theorem pruned_mark_safe {ai : AI} (hp : Pruned ai) (c : Cell) :
    Pruned (ai.mark_safe c) := by
  intro s' hs' x hx
  rcases List.mem_map.mp hs' with ⟨s, hs, rfl⟩
  rw [mark_safe_cells] at hx
  have hxs := Finset.mem_of_mem_erase hx
  have hxc := Finset.ne_of_mem_erase hx
  refine ⟨(hp s hs x hxs).1, ?_⟩
  rw [AI.mark_safe]
  simp only [Finset.mem_insert]
  push_neg
  exact ⟨hxc, (hp s hs x hxs).2⟩

theorem pruned_mark_mine {ai : AI} (hp : Pruned ai) (c : Cell) :
    Pruned (ai.mark_mine c) := by
  intro s' hs' x hx
  rcases List.mem_map.mp hs' with ⟨s, hs, rfl⟩
  rw [mark_mine_cells] at hx
  have hxs := Finset.mem_of_mem_erase hx
  have hxc := Finset.ne_of_mem_erase hx
  refine ⟨?_, (hp s hs x hxs).2⟩
  rw [AI.mark_mine]
  simp only [Finset.mem_insert]
  push_neg
  exact ⟨hxc, (hp s hs x hxs).1⟩

theorem pruned_markSafeSet {ai : AI} (hp : Pruned ai) (cs : Finset Cell) :
    Pruned (ai.markSafeSet cs) := by
  intro s' hs' x hx
  rcases List.mem_map.mp hs' with ⟨s, hs, rfl⟩
  rw [Sentence.markSafeSet] at hx
  simp only [Finset.mem_sdiff] at hx
  refine ⟨(hp s hs x hx.1).1, ?_⟩
  rw [AI.markSafeSet]
  simp only [Finset.mem_union]
  push_neg
  exact ⟨(hp s hs x hx.1).2, hx.2⟩

theorem pruned_markMineSet {ai : AI} (hp : Pruned ai) (cs : Finset Cell) :
    Pruned (ai.markMineSet cs) := by
  intro s' hs' x hx
  rcases List.mem_map.mp hs' with ⟨s, hs, rfl⟩
  rw [Sentence.markMineSet] at hx
  simp only [Finset.mem_sdiff] at hx
  refine ⟨?_, (hp s hs x hx.1).2⟩
  rw [AI.markMineSet]
  simp only [Finset.mem_union]
  push_neg
  exact ⟨(hp s hs x hx.1).1, hx.2⟩

theorem pruned_resolveScan : ∀ (n i : ℕ) {ai : AI}, Pruned ai →
    Pruned (resolveScan n i ai).1
  | 0, _, _, hp => hp
  | n + 1, i, ai, hp => by
    rw [resolveScan]
    cases hg : ai.knowledge[i]? with
    | none => exact hp
    | some s =>
      exact pruned_resolveScan n (i + 1)
        (pruned_markMineSet (pruned_markSafeSet hp s.known_safes) s.known_mines)

theorem mem_foldl_erase {s : Sentence} : ∀ (q l : List Sentence),
    s ∈ q.foldl (fun l v => l.erase v) l → s ∈ l
  | [], _, h => h
  | v :: q, l, h => List.mem_of_mem_erase (mem_foldl_erase q (l.erase v) h)

theorem pruned_resolvePhase {ai : AI} (hp : Pruned ai) : Pruned (resolvePhase ai).1 := by
  intro s hs x hx
  have hscan := pruned_resolveScan ai.knowledge.length 0 hp
  exact hscan s (mem_foldl_erase _ _ hs) x hx

theorem mem_subsetPairs {l : List Sentence} {p : Sentence × Sentence}
    (h : p ∈ subsetPairs l) :
    ∃ s ∈ l, ∃ s2 ∈ l, (s.cells ≠ s2.cells ∧ s.cells ⊆ s2.cells) ∧
      p = (deriveSentence s s2, s2) := by
  rcases List.mem_flatMap.mp h with ⟨s, hs, hmem⟩
  rcases List.mem_filterMap.mp hmem with ⟨s2, hs2, hsome⟩
  refine ⟨s, hs, s2, hs2, ?_⟩
  by_cases hc : s.cells ≠ s2.cells ∧ s.cells ⊆ s2.cells
  · rw [if_pos hc] at hsome
    exact ⟨hc, (Option.some.inj hsome).symm⟩
  · rw [if_neg hc] at hsome
    exact absurd hsome (by simp)

theorem pruned_subsetPhase {ai : AI} (hp : Pruned ai) : Pruned (subsetPhase ai).1 := by
  intro s hs x hx
  have hs' := mem_foldl_erase _ _ hs
  rcases List.mem_append.mp hs' with hold | hnew
  · exact hp s hold x hx
  · rcases List.mem_map.mp hnew with ⟨p, hpmem, rfl⟩
    rcases mem_subsetPairs hpmem with ⟨a, _, b, hb, _, rfl⟩
    have : x ∈ b.cells := by
      rw [deriveSentence] at hx
      exact Finset.mem_sdiff.mp hx |>.1
    exact hp b hb x this

theorem pruned_passStep {ai : AI} (hp : Pruned ai) : Pruned (passStep ai).1 :=
  pruned_subsetPhase (pruned_resolvePhase hp)

theorem pruned_deductionLoop : ∀ (fuel : ℕ) {ai ai' : AI},
    deductionLoop fuel ai = some ai' → Pruned ai → Pruned ai'
  | 0, _, _, h, _ => absurd h (by simp [deductionLoop])
  | fuel + 1, ai, ai', h, hp => by
    simp only [deductionLoop] at h
    by_cases hc : (passStep ai).2
    · rw [if_pos hc] at h
      exact pruned_deductionLoop fuel h (pruned_passStep hp)
    · rw [if_neg hc] at h
      obtain rfl := Option.some.inj h
      exact pruned_passStep hp

theorem pruned_addKnowledgeInsert {ai : AI} (hp : Pruned ai) (c : Cell) (n : ℤ) :
    Pruned (addKnowledgeInsert ai c n) := by
  have hp1 : Pruned { ai with moves_made := insert c ai.moves_made } := hp
  have hp2 := pruned_mark_safe hp1 c
  intro s hs x hx
  rcases List.mem_append.mp hs with hold | hnew
  · exact hp2 s hold x hx
  · rcases List.mem_singleton.mp hnew with rfl
    rw [Sentence.markMineSet, Sentence.markSafeSet] at hx
    simp only [Finset.mem_sdiff] at hx
    exact ⟨hx.2, hx.1.2⟩

/-- C10: the pruning invariant — every held sentence's cell set is disjoint
from `mines ∪ safes` — is preserved by each public operation: by `mark_mine`
and `mark_safe` (marking cascades the removal of the cell into every held
sentence) and by `add_knowledge` (the new sentence is pruned against the
current certainty sets, and every sentence derived in the deduction loop
inherits the property). -/
theorem claim10_pruned_invariant (ai : AI) (hp : Pruned ai) :
    (∀ c : Cell, Pruned (ai.mark_mine c) ∧ Pruned (ai.mark_safe c)) ∧
    (∀ (fuel : ℕ) (c : Cell) (n : ℤ) (ai' : AI),
      addKnowledge fuel ai c n = some ai' → Pruned ai') := by
  refine ⟨fun c => ⟨pruned_mark_mine hp c, pruned_mark_safe hp c⟩, ?_⟩
  intro fuel c n ai' h
  exact pruned_deductionLoop fuel h (pruned_addKnowledgeInsert hp c n)

/-- Witness for C10: a concrete `add_knowledge` run from the initial state. -/
theorem claim10_pruned_invariant_witness :
    Pruned (AI.mk 3 3 {(0,0)} ∅ {(0,0), (0,1), (1,0), (1,1)} []) :=
  (claim10_pruned_invariant (AI.init 3 3)
      (fun s hs => absurd hs (List.not_mem_nil s))).2
    2 (0, 0) 0 _ (by decide)

/-! ## C4: soundness along valid runs, and disjointness of the certainty sets -/

theorem filter_sdiff_of_disjointP {cells cs P : Finset Cell} (h : ∀ c ∈ cs, c ∉ P) :
    (cells \ cs).filter (· ∈ P) = cells.filter (· ∈ P) := by
  ext x
  simp only [Finset.mem_filter, Finset.mem_sdiff]
  constructor
  · exact fun hx => ⟨hx.1.1, hx.2⟩
  · intro hx
    refine ⟨⟨hx.1, fun hcs => h x hcs hx.2⟩, hx.2⟩

theorem filter_sdiff_of_subsetP {cells cs P : Finset Cell} (_ : cs ⊆ P) :
    (cells \ cs).filter (· ∈ P) = cells.filter (· ∈ P) \ (cells ∩ cs) := by
  ext x
  simp only [Finset.mem_filter, Finset.mem_sdiff, Finset.mem_inter, not_and]
  constructor
  · intro hx
    exact ⟨⟨hx.1.1, hx.2⟩, fun _ => hx.1.2⟩
  · intro hx
    exact ⟨⟨hx.1.1, fun hcs => hx.2 hx.1.1 hcs⟩, hx.1.2⟩

theorem soundS_markSafeSet {P : Finset Cell} {s : Sentence} {cs : Finset Cell}
    (hs : SoundS P s) (h : ∀ c ∈ cs, c ∉ P) : SoundS P (s.markSafeSet cs) := by
  unfold SoundS Sentence.markSafeSet at *
  simpa [filter_sdiff_of_disjointP h] using hs

theorem soundS_markMineSet {P : Finset Cell} {s : Sentence} {cs : Finset Cell}
    (hs : SoundS P s) (h : cs ⊆ P) : SoundS P (s.markMineSet cs) := by
  unfold SoundS Sentence.markMineSet at *
  simp only
  rw [filter_sdiff_of_subsetP h]
  have hsub : s.cells ∩ cs ⊆ s.cells.filter (· ∈ P) := by
    intro x hx
    exact Finset.mem_filter.mpr ⟨(Finset.mem_inter.mp hx).1, h (Finset.mem_inter.mp hx).2⟩
  rw [Finset.card_sdiff hsub, Nat.cast_sub (Finset.card_le_card hsub), ← hs]

theorem soundS_derive {P : Finset Cell} {a b : Sentence}
    (ha : SoundS P a) (hb : SoundS P b) (hsub : a.cells ⊆ b.cells) :
    SoundS P (deriveSentence a b) := by
  unfold SoundS deriveSentence at *
  simp only
  have hset : (b.cells \ a.cells).filter (· ∈ P)
      = b.cells.filter (· ∈ P) \ a.cells.filter (· ∈ P) := by
    ext x
    simp only [Finset.mem_filter, Finset.mem_sdiff, not_and]
    constructor
    · intro hx
      exact ⟨⟨hx.1.1, hx.2⟩, fun hxa => absurd hx.1.2 (by simp [hxa])⟩
    · intro hx
      exact ⟨⟨hx.1.1, fun hxa => hx.2 hxa hx.1.2⟩, hx.1.2⟩
  have hf : a.cells.filter (· ∈ P) ⊆ b.cells.filter (· ∈ P) :=
    Finset.filter_subset_filter _ hsub
  rw [hset, Finset.card_sdiff hf, Nat.cast_sub (Finset.card_le_card hf), ← ha, ← hb]

theorem soundS_empty_count {P : Finset Cell} {s : Sentence}
    (hs : SoundS P s) (h : s.cells = ∅) : s.count = 0 := by
  unfold SoundS at hs
  rw [h] at hs
  simpa using hs

theorem knownSafes_disjointP {P : Finset Cell} {s : Sentence} (hs : SoundS P s) :
    ∀ c ∈ s.known_safes, c ∉ P := by
  intro c hc hP
  rw [Sentence.known_safes] at hc
  split at hc
  · next h0 =>
    have hcard : (s.cells.filter (· ∈ P)).card = 0 := by
      have : ((s.cells.filter (· ∈ P)).card : ℤ) = 0 := by rw [← hs, h0]
      exact_mod_cast this
    have : s.cells.filter (· ∈ P) = ∅ := Finset.card_eq_zero.mp hcard
    exact absurd (Finset.mem_filter.mpr ⟨hc, hP⟩) (by simp [this])
  · exact absurd hc (Finset.not_mem_empty c)

theorem knownMines_subsetP {P : Finset Cell} {s : Sentence} (hs : SoundS P s) :
    s.known_mines ⊆ P := by
  rw [Sentence.known_mines]
  split
  · next hcc =>
    have hle : s.cells.filter (· ∈ P) ⊆ s.cells := Finset.filter_subset _ _
    have hcard : s.cells.card = (s.cells.filter (· ∈ P)).card := by
      have : (s.cells.card : ℤ) = ((s.cells.filter (· ∈ P)).card : ℤ) := hcc.trans hs
      exact_mod_cast this
    have heq : s.cells.filter (· ∈ P) = s.cells :=
      Finset.eq_of_subset_of_card_le hle (le_of_eq hcard)
    intro c hc
    rw [← heq] at hc
    exact (Finset.mem_filter.mp hc).2
  · exact Finset.empty_subset P

theorem sound_markSafeSet {P : Finset Cell} {ai : AI} {cs : Finset Cell}
    (h : Sound P ai) (hcs : ∀ c ∈ cs, c ∉ P) : Sound P (ai.markSafeSet cs) := by
  refine ⟨?_, h.2.1, ?_⟩
  · intro s' hs'
    rcases List.mem_map.mp hs' with ⟨s, hsm, rfl⟩
    exact soundS_markSafeSet (h.1 s hsm) hcs
  · intro c hc
    rcases Finset.mem_union.mp hc with h1 | h2
    · exact h.2.2 c h1
    · exact hcs c h2

theorem sound_markMineSet {P : Finset Cell} {ai : AI} {cs : Finset Cell}
    (h : Sound P ai) (hcs : cs ⊆ P) : Sound P (ai.markMineSet cs) := by
  refine ⟨?_, Finset.union_subset h.2.1 hcs, h.2.2⟩
  intro s' hs'
  rcases List.mem_map.mp hs' with ⟨s, hsm, rfl⟩
  exact soundS_markMineSet (h.1 s hsm) hcs

theorem sound_resolveScan : ∀ (n i : ℕ) {P : Finset Cell} {ai : AI}, Sound P ai →
    Sound P (resolveScan n i ai).1
  | 0, _, _, _, h => h
  | n + 1, i, P, ai, h => by
    rw [resolveScan]
    cases hg : ai.knowledge[i]? with
    | none => exact h
    | some s =>
      have hsnd : SoundS P s := h.1 s (List.getElem?_mem hg)
      exact sound_resolveScan n (i + 1)
        (sound_markMineSet (sound_markSafeSet h (knownSafes_disjointP hsnd))
          (knownMines_subsetP hsnd))

theorem sound_knowledge_of_mem {P : Finset Cell} {ai : AI} (h : Sound P ai)
    (k' : List Sentence) (hk : ∀ s ∈ k', SoundS P s) :
    Sound P { ai with knowledge := k' } :=
  ⟨hk, h.2.1, h.2.2⟩

theorem sound_resolvePhase {P : Finset Cell} {ai : AI} (h : Sound P ai) :
    Sound P (resolvePhase ai).1 := by
  have hscan := sound_resolveScan ai.knowledge.length 0 h
  exact sound_knowledge_of_mem hscan _
    (fun s hs => hscan.1 s (mem_foldl_erase _ _ hs))

theorem sound_subsetPhase {P : Finset Cell} {ai : AI} (h : Sound P ai) :
    Sound P (subsetPhase ai).1 := by
  refine ⟨?_, h.2.1, h.2.2⟩
  intro s hs
  have hs' := mem_foldl_erase _ _ hs
  rcases List.mem_append.mp hs' with hold | hnew
  · exact h.1 s hold
  · rcases List.mem_map.mp hnew with ⟨p, hp, rfl⟩
    rcases mem_subsetPairs hp with ⟨a, ha, b, hb, hcond, rfl⟩
    exact soundS_derive (h.1 a ha) (h.1 b hb) hcond.2

theorem sound_passStep {P : Finset Cell} {ai : AI} (h : Sound P ai) :
    Sound P (passStep ai).1 :=
  sound_subsetPhase (sound_resolvePhase h)

theorem sound_deductionLoop : ∀ (fuel : ℕ) {P : Finset Cell} {ai ai' : AI},
    deductionLoop fuel ai = some ai' → Sound P ai → Sound P ai'
  | 0, _, _, _, h, _ => absurd h (by simp [deductionLoop])
  | fuel + 1, P, ai, ai', h, hs => by
    simp only [deductionLoop] at h
    by_cases hc : (passStep ai).2
    · rw [if_pos hc] at h
      exact sound_deductionLoop fuel h (sound_passStep hs)
    · rw [if_neg hc] at h
      obtain rfl := Option.some.inj h
      exact sound_passStep hs

theorem mark_safe_eq_markSafeSet (s : Sentence) (c : Cell) :
    s.mark_safe c = s.markSafeSet {c} := by
  rw [Sentence.mark_safe, Sentence.markSafeSet]
  split
  · rw [Finset.erase_eq]
  · next h =>
    have : s.cells \ {c} = s.cells := by
      rw [← Finset.erase_eq]
      exact Finset.erase_eq_of_not_mem h
    rw [this]

theorem mark_mine_eq_markMineSet (s : Sentence) (c : Cell) :
    s.mark_mine c = s.markMineSet {c} := by
  rw [Sentence.mark_mine, Sentence.markMineSet]
  split
  · next h =>
    rw [Finset.erase_eq, Finset.inter_singleton_of_mem h]
    simp
  · next h =>
    have h1 : s.cells \ {c} = s.cells := by
      rw [← Finset.erase_eq]
      exact Finset.erase_eq_of_not_mem h
    rw [h1, Finset.inter_singleton_of_not_mem h]
    simp

theorem sound_mark_safe {P : Finset Cell} {ai : AI} {c : Cell}
    (h : Sound P ai) (hc : c ∉ P) : Sound P (ai.mark_safe c) := by
  refine ⟨?_, h.2.1, ?_⟩
  · intro s' hs'
    rcases List.mem_map.mp hs' with ⟨s, hsm, rfl⟩
    rw [mark_safe_eq_markSafeSet]
    exact soundS_markSafeSet (h.1 s hsm)
      (fun x hx => by rwa [Finset.mem_singleton.mp hx])
  · intro x hx
    rcases Finset.mem_insert.mp hx with rfl | hold
    · exact hc
    · exact h.2.2 x hold

theorem sound_addKnowledgeInsert {P : Finset Cell} {ai : AI} {c : Cell} {n : ℤ}
    (h : Sound P ai) (hv : ValidHint P ai.height ai.width c n) :
    Sound P (addKnowledgeInsert ai c n) := by
  have h2 : Sound P (AI.mark_safe { ai with moves_made := insert c ai.moves_made } c) :=
    sound_mark_safe h hv.1
  refine ⟨?_, h2.2.1, h2.2.2⟩
  intro s hs
  rcases List.mem_append.mp hs with hold | hnew
  · exact h2.1 s hold
  · rcases List.mem_singleton.mp hnew with rfl
    have hbase : SoundS P (⟨neighbors ai.height ai.width c, n⟩ : Sentence) := hv.2.2
    exact soundS_markMineSet (soundS_markSafeSet hbase h2.2.2) h2.2.1

theorem sound_init (P : Finset Cell) (h w : ℤ) : Sound P (AI.init h w) :=
  ⟨fun s hs => absurd hs (List.not_mem_nil s), Finset.empty_subset P,
   fun c hc => absurd hc (Finset.not_mem_empty c)⟩

theorem resolveScan_dims : ∀ (n i : ℕ) (ai : AI),
    (resolveScan n i ai).1.height = ai.height ∧ (resolveScan n i ai).1.width = ai.width
  | 0, _, _ => ⟨rfl, rfl⟩
  | n + 1, i, ai => by
    rw [resolveScan]
    cases hg : ai.knowledge[i]? with
    | none => exact ⟨rfl, rfl⟩
    | some s =>
      exact resolveScan_dims n (i + 1)
        ((ai.markSafeSet s.known_safes).markMineSet s.known_mines)

theorem passStep_dims (ai : AI) :
    (passStep ai).1.height = ai.height ∧ (passStep ai).1.width = ai.width :=
  resolveScan_dims ai.knowledge.length 0 ai

theorem deductionLoop_dims : ∀ (fuel : ℕ) {ai ai' : AI},
    deductionLoop fuel ai = some ai' → ai'.height = ai.height ∧ ai'.width = ai.width
  | 0, _, _, h => absurd h (by simp [deductionLoop])
  | fuel + 1, ai, ai', h => by
    simp only [deductionLoop] at h
    by_cases hc : (passStep ai).2
    · rw [if_pos hc] at h
      have ih := deductionLoop_dims fuel h
      have hp := passStep_dims ai
      exact ⟨ih.1.trans hp.1, ih.2.trans hp.2⟩
    · rw [if_neg hc] at h
      obtain rfl := Option.some.inj h
      exact passStep_dims ai

theorem addKnowledge_dims {fuel : ℕ} {ai : AI} {c : Cell} {n : ℤ} {ai' : AI}
    (h : addKnowledge fuel ai c n = some ai') :
    ai'.height = ai.height ∧ ai'.width = ai.width := by
  have h2 := deductionLoop_dims fuel
    (show deductionLoop fuel (addKnowledgeInsert ai c n) = some ai' from h)
  exact h2

theorem sound_addKnowledge {P : Finset Cell} {fuel : ℕ} {ai : AI} {c : Cell} {n : ℤ} {ai' : AI}
    (h : Sound P ai) (hv : ValidHint P ai.height ai.width c n)
    (hk : addKnowledge fuel ai c n = some ai') : Sound P ai' :=
  sound_deductionLoop fuel hk (sound_addKnowledgeInsert h hv)

theorem sound_runHints : ∀ (hints : List (Cell × ℤ)) (fuel : ℕ) {P : Finset Cell} {ai ai' : AI},
    Sound P ai → (∀ p ∈ hints, ValidHint P ai.height ai.width p.1 p.2) →
    runHints fuel hints ai = some ai' → Sound P ai'
  | [], _, _, _, _, hs, _, hr => by
    obtain rfl := Option.some.inj hr
    exact hs
  | (c, n) :: rest, fuel, P, ai, ai', hs, hv, hr => by
    rw [runHints] at hr
    cases hk : addKnowledge fuel ai c n with
    | none => rw [hk] at hr; exact absurd hr (by simp)
    | some ai1 =>
      rw [hk] at hr
      have hs1 := sound_addKnowledge hs (hv (c, n) (List.mem_cons_self _ _)) hk
      have hdims := addKnowledge_dims hk
      refine sound_runHints rest fuel hs1 ?_ hr
      intro p hp
      rw [hdims.1, hdims.2]
      exact hv p (List.mem_cons_of_mem _ hp)

/-- C4: for every consistent mine placement `P` and every sequence of valid
hints processed from the initial state, after every `add_knowledge` call the
confirmed-mines set and the confirmed-safe set are disjoint.  (Every prefix of
a valid hint sequence is itself one, so this covers the state after each
call.)  It follows from soundness: `mines ⊆ P` and `safes ∩ P = ∅` hold along
the whole run. -/
theorem claim4_disjoint (P : Finset Cell) (hints : List (Cell × ℤ)) (fuel : ℕ)
    (h w : ℤ) (ai' : AI)
    (hv : ∀ p ∈ hints, ValidHint P h w p.1 p.2)
    (hrun : runHints fuel hints (AI.init h w) = some ai') :
    ai'.mines ∩ ai'.safes = ∅ := by
  have hs := sound_runHints hints fuel (sound_init P h w) hv hrun
  apply Finset.eq_empty_iff_forall_not_mem.mpr
  intro x hx
  exact hs.2.2 x (Finset.mem_inter.mp hx).2 (hs.2.1 (Finset.mem_inter.mp hx).1)

/-- Witness for C4: 3×3 grid, mine at `(2,2)`, hint `((0,0), 0)`. -/
theorem claim4_disjoint_witness :
    (AI.mk 3 3 {(0,0)} ∅ {(0,0), (0,1), (1,0), (1,1)} []).mines ∩
      (AI.mk 3 3 {(0,0)} ∅ {(0,0), (0,1), (1,0), (1,1)} []).safes = ∅ :=
  claim4_disjoint {(2,2)} [((0,0), 0)] 2 3 3 _
    (by
      intro p hp
      rcases List.mem_singleton.mp hp with rfl
      exact ⟨by decide, by decide, by decide⟩)
    (by decide)

/-! ## C1: termination of the deduction fixpoint — measure infrastructure -/

theorem toMeasure_lt_intro {m m' : Multiset ℕ} (L : ℕ)
    (hj : ∀ k, L < k → m'.count k = m.count k) (hL : m'.count L < m.count L) :
    toMeasure m' < toMeasure m := by
  have hlex : Finsupp.Lex (· < ·) (· < ·) (ofLex (toMeasure m')) (ofLex (toMeasure m)) := by
    rw [Finsupp.lex_def]
    refine ⟨OrderDual.toDual L, ?_, ?_⟩
    · intro d hd
      have hdn : L < OrderDual.ofDual d := hd
      simpa [toMeasure, Finsupp.equivMapDomain_apply] using hj _ hdn
    · simpa [toMeasure, Finsupp.equivMapDomain_apply] using hL
  exact hlex

theorem lex_lt_of_dm {X Y Z : Multiset ℕ} (hZ : Z ≠ 0) (hY : ∀ y ∈ Y, ∃ z ∈ Z, y < z) :
    toMeasure (X + Y) < toMeasure (X + Z) := by
  have hZne : Z.toFinset.Nonempty := by
    rcases Multiset.exists_mem_of_ne_zero hZ with ⟨z, hz⟩
    exact ⟨z, Multiset.mem_toFinset.mpr hz⟩
  have hLmem : Z.toFinset.max' hZne ∈ Z :=
    Multiset.mem_toFinset.mp (Z.toFinset.max'_mem hZne)
  have hLmax : ∀ z ∈ Z, z ≤ Z.toFinset.max' hZne := fun z hz =>
    Z.toFinset.le_max' z (Multiset.mem_toFinset.mpr hz)
  have hYlt : ∀ y ∈ Y, y < Z.toFinset.max' hZne := by
    intro y hy
    rcases hY y hy with ⟨z, hz, hyz⟩
    exact lt_of_lt_of_le hyz (hLmax z hz)
  apply toMeasure_lt_intro (Z.toFinset.max' hZne)
  · intro k hk
    have hYk : Y.count k = 0 :=
      Multiset.count_eq_zero.mpr (fun hmem => absurd (hYlt k hmem) (by omega))
    have hZk : Z.count k = 0 :=
      Multiset.count_eq_zero.mpr (fun hmem => absurd (hLmax k hmem) (by omega))
    simp [Multiset.count_add, hYk, hZk]
  · have hYL : Y.count (Z.toFinset.max' hZne) = 0 :=
      Multiset.count_eq_zero.mpr
        (fun hmem => absurd (hYlt _ hmem) (lt_irrefl _))
    have hZL : 0 < Z.count (Z.toFinset.max' hZne) := Multiset.count_pos.mpr hLmem
    simp only [Multiset.count_add, hYL]
    omega

theorem multiset_le_split {Q A B : Multiset ℕ} (h : Q ≤ A + B) :
    ∃ Qa Qb, Q = Qa + Qb ∧ Qa ≤ A ∧ Qb ≤ B := by
  refine ⟨Q ∩ A, Q - A, ?_, Multiset.inter_le_right _ _, ?_⟩
  · rw [add_comm, Multiset.sub_add_inter]
  · rw [Multiset.le_iff_count]
    intro a
    rw [Multiset.count_sub]
    have hc := Multiset.le_iff_count.mp h a
    rw [Multiset.count_add] at hc
    omega

theorem map_tsub {α β : Type} [DecidableEq α] [DecidableEq β]
    (f : α → β) {s t : Multiset α} (h : t ≤ s) :
    (s - t).map f = s.map f - t.map f := by
  rcases Multiset.le_iff_exists_add.mp h with ⟨u, rfl⟩
  rw [add_tsub_cancel_left, Multiset.map_add, add_tsub_cancel_left]

theorem lex_lt_dm_sub {X Y Z Q : Multiset ℕ} (hQ : Q ≤ X + Y)
    (hYZ : ∀ y ∈ Y, ∃ z ∈ Z, y < z) (hne : Q ≠ 0 ∨ Z ≠ 0) :
    toMeasure ((X + Y) - Q) < toMeasure (X + Z) := by
  rcases multiset_le_split hQ with ⟨Qx, Qy, rfl, hQx, hQy⟩
  have hYne : Y ≠ 0 → Z ≠ 0 := by
    intro hy hz0
    rcases Multiset.exists_mem_of_ne_zero hy with ⟨y, hymem⟩
    rcases hYZ y hymem with ⟨z, hzmem, _⟩
    rw [hz0] at hzmem
    exact absurd hzmem (Multiset.not_mem_zero z)
  have hZ' : Qx + Z ≠ 0 := by
    intro h0
    have hQx0 : Qx = 0 := Multiset.le_zero.mp (h0 ▸ Multiset.le_add_right Qx Z)
    have hZ0 : Z = 0 := Multiset.le_zero.mp (h0 ▸ Multiset.le_add_left Z Qx)
    rcases hne with hq | hz
    · rcases Multiset.exists_mem_of_ne_zero hq with ⟨q, hqmem⟩
      rcases Multiset.mem_add.mp hqmem with hqa | hqb
      · rw [hQx0] at hqa
        exact absurd hqa (Multiset.not_mem_zero q)
      · have : q ∈ Y := Multiset.mem_of_le hQy hqb
        exact hYne (fun hy0 => by rw [hy0] at this; exact Multiset.not_mem_zero q this) hZ0
    · exact hz hZ0
  have heq : (X + Y) - (Qx + Qy) = (X - Qx) + (Y - Qy) := by
    rcases Multiset.le_iff_exists_add.mp hQx with ⟨X', hX⟩
    rcases Multiset.le_iff_exists_add.mp hQy with ⟨Y', hY⟩
    rw [hX, hY, add_tsub_cancel_left, add_tsub_cancel_left]
    have hre : Qx + X' + (Qy + Y') = Qx + Qy + (X' + Y') := by
      rw [add_assoc, add_assoc]
      congr 1
      rw [← add_assoc, ← add_assoc, add_comm X' Qy]
    rw [hre, add_tsub_cancel_left]
  have hXZ : X + Z = (X - Qx) + (Qx + Z) := by
    rw [← add_assoc, tsub_add_cancel_of_le hQx]
  rw [heq, hXZ]
  apply lex_lt_of_dm hZ'
  intro y hy
  have hymem : y ∈ Y := Multiset.mem_of_le (Multiset.sub_le_self Y Qy) hy
  rcases hYZ y hymem with ⟨z, hz, hyz⟩
  exact ⟨z, Multiset.mem_add.mpr (Or.inr hz), hyz⟩

theorem split_of_forall₂ : ∀ {l₁ l₀ : List ℕ}, List.Forall₂ (· ≤ ·) l₁ l₀ →
    ∃ X Y Z : Multiset ℕ, (↑l₀ : Multiset ℕ) = X + Z ∧ (↑l₁ : Multiset ℕ) = X + Y ∧
      ∀ y ∈ Y, ∃ z ∈ Z, y < z := by
  intro l₁ l₀ h
  induction h with
  | nil => exact ⟨0, 0, 0, by simp, by simp, by simp⟩
  | @cons a b l₁' l₀' hab _ ih =>
    rcases ih with ⟨X, Y, Z, h0, h1, hYZ⟩
    by_cases hab' : a = b
    · refine ⟨a ::ₘ X, Y, Z, ?_, ?_, hYZ⟩
      · rw [← Multiset.cons_coe, h0, hab', Multiset.cons_add]
      · rw [← Multiset.cons_coe, h1, Multiset.cons_add]
    · have hlt : a < b := lt_of_le_of_ne hab hab'
      refine ⟨X, a ::ₘ Y, b ::ₘ Z, ?_, ?_, ?_⟩
      · rw [← Multiset.cons_coe, h0]
        rw [Multiset.add_cons]
      · rw [← Multiset.cons_coe, h1]
        rw [Multiset.add_cons]
      · intro y hy
        rcases Multiset.mem_cons.mp hy with rfl | hy'
        · exact ⟨b, Multiset.mem_cons_self b Z, hlt⟩
        · rcases hYZ y hy' with ⟨z, hz, hyz⟩
          exact ⟨z, Multiset.mem_cons_of_mem hz, hyz⟩

/-! ### Unfolding equations and basic structure of the phases -/

theorem resolveScan_none {n i : ℕ} {ai : AI} (hg : ai.knowledge[i]? = none) :
    resolveScan (n + 1) i ai = (ai, []) := by
  rw [resolveScan, hg]

theorem resolveScan_some {n i : ℕ} {ai : AI} {s : Sentence}
    (hg : ai.knowledge[i]? = some s) :
    resolveScan (n + 1) i ai =
      ((resolveScan n (i + 1) ((ai.markSafeSet s.known_safes).markMineSet s.known_mines)).1,
        (decide (s.known_safes ≠ ∅) || decide (s.known_mines ≠ ∅) ||
          decide (s.cells = ∅)) ::
          (resolveScan n (i + 1)
            ((ai.markSafeSet s.known_safes).markMineSet s.known_mines)).2) := by
  rw [resolveScan, hg]

theorem resolvePhase_def (ai : AI) : resolvePhase ai =
    ({ (resolveScan ai.knowledge.length 0 ai).1 with
        knowledge := (((((resolveScan ai.knowledge.length 0 ai).1.knowledge.zip
          (resolveScan ai.knowledge.length 0 ai).2).filter (·.2)).map (·.1)).foldl
            (fun l s => l.erase s) (resolveScan ai.knowledge.length 0 ai).1.knowledge) },
      (resolveScan ai.knowledge.length 0 ai).2.any id) :=
  rfl

theorem subsetPhase_def (ai : AI) : subsetPhase ai =
    ({ ai with
        knowledge := (((subsetPairs ai.knowledge).map Prod.snd).foldl
          (fun l s => l.erase s)
          (ai.knowledge ++ (subsetPairs ai.knowledge).map Prod.fst)) },
      !(subsetPairs ai.knowledge).isEmpty) :=
  rfl

theorem markSafeSet_empty_ai (ai : AI) : ai.markSafeSet ∅ = ai := by
  rw [AI.markSafeSet]
  have hk : ai.knowledge.map (·.markSafeSet ∅) = ai.knowledge := by
    have h1 : ai.knowledge.map (·.markSafeSet ∅) = ai.knowledge.map id :=
      List.map_congr_left (fun s _ => by rw [Sentence.markSafeSet, Finset.sdiff_empty]; rfl)
    rw [h1, List.map_id]
  rw [hk, Finset.union_empty]

theorem markMineSet_empty_ai (ai : AI) : ai.markMineSet ∅ = ai := by
  rw [AI.markMineSet]
  have hk : ai.knowledge.map (·.markMineSet ∅) = ai.knowledge := by
    have h1 : ai.knowledge.map (·.markMineSet ∅) = ai.knowledge.map id :=
      List.map_congr_left (fun s _ => by
        rw [Sentence.markMineSet, Finset.inter_empty, Finset.sdiff_empty]
        simp)
    rw [h1, List.map_id]
  rw [hk, Finset.union_empty]

theorem resolveScan_length : ∀ (n i : ℕ) (ai : AI),
    (resolveScan n i ai).1.knowledge.length = ai.knowledge.length
  | 0, _, _ => rfl
  | n + 1, i, ai => by
    cases hg : ai.knowledge[i]? with
    | none => rw [resolveScan_none hg]
    | some s =>
      rw [resolveScan_some hg]
      have ih := resolveScan_length n (i + 1)
        ((ai.markSafeSet s.known_safes).markMineSet s.known_mines)
      rw [ih]
      simp [AI.markSafeSet, AI.markMineSet]

theorem resolveScan_flags_length : ∀ (n i : ℕ) (ai : AI),
    (resolveScan n i ai).2.length = min n (ai.knowledge.length - i)
  | 0, _, _ => by simp [resolveScan]
  | n + 1, i, ai => by
    cases hg : ai.knowledge[i]? with
    | none =>
      rw [resolveScan_none hg]
      have hlen : ai.knowledge.length ≤ i := List.getElem?_eq_none_iff.mp hg
      simp
      omega
    | some s =>
      rw [resolveScan_some hg]
      have hlt : i < ai.knowledge.length := by
        by_contra hn
        rw [List.getElem?_eq_none (by omega)] at hg
        exact absurd hg (by simp)
      have ih := resolveScan_flags_length n (i + 1)
        ((ai.markSafeSet s.known_safes).markMineSet s.known_mines)
      have hlen : ((ai.markSafeSet s.known_safes).markMineSet s.known_mines).knowledge.length
          = ai.knowledge.length := by
        simp [AI.markSafeSet, AI.markMineSet]
      simp only [List.length_cons, ih, hlen]
      omega

theorem forall₂_shrink_map (l : List Sentence) (f : Sentence → Sentence)
    (hf : ∀ s, (f s).cells ⊆ s.cells) :
    List.Forall₂ (fun a b => a.cells ⊆ b.cells) (l.map f) l := by
  induction l with
  | nil => exact List.Forall₂.nil
  | cons a l ih => exact List.Forall₂.cons (hf a) ih

theorem forall₂_cells_trans : ∀ {a b : List Sentence},
    List.Forall₂ (fun x y => x.cells ⊆ y.cells) a b →
    ∀ {c : List Sentence}, List.Forall₂ (fun x y => x.cells ⊆ y.cells) b c →
    List.Forall₂ (fun x y => x.cells ⊆ y.cells) a c := by
  intro a b hab
  induction hab with
  | nil =>
    intro c hbc
    cases hbc
    exact List.Forall₂.nil
  | cons h t ih =>
    intro c hbc
    cases hbc with
    | cons h2 t2 => exact List.Forall₂.cons (Finset.Subset.trans h h2) (ih t2)

theorem forall₂_cells_refl (l : List Sentence) :
    List.Forall₂ (fun x y => x.cells ⊆ y.cells) l l := by
  induction l with
  | nil => exact List.Forall₂.nil
  | cons a l ih => exact List.Forall₂.cons (Finset.Subset.refl _) ih

theorem resolveScan_shrink : ∀ (n i : ℕ) (ai : AI),
    List.Forall₂ (fun a b => a.cells ⊆ b.cells) (resolveScan n i ai).1.knowledge ai.knowledge
  | 0, _, ai => forall₂_cells_refl ai.knowledge
  | n + 1, i, ai => by
    cases hg : ai.knowledge[i]? with
    | none =>
      rw [resolveScan_none hg]
      exact forall₂_cells_refl ai.knowledge
    | some s =>
      rw [resolveScan_some hg]
      have h1 : List.Forall₂ (fun a b => a.cells ⊆ b.cells)
          ((ai.markSafeSet s.known_safes).markMineSet s.known_mines).knowledge
          ai.knowledge := by
        have ha := forall₂_shrink_map ai.knowledge (·.markSafeSet s.known_safes)
          (fun _ => Finset.sdiff_subset)
        have hb := forall₂_shrink_map (ai.knowledge.map (·.markSafeSet s.known_safes))
          (·.markMineSet s.known_mines) (fun _ => Finset.sdiff_subset)
        exact forall₂_cells_trans hb ha
      exact forall₂_cells_trans
        (resolveScan_shrink n (i + 1) ((ai.markSafeSet s.known_safes).markMineSet s.known_mines))
        h1

theorem forall₂_map_card : ∀ {l₁ l₀ : List Sentence},
    List.Forall₂ (fun a b => a.cells ⊆ b.cells) l₁ l₀ →
    List.Forall₂ (· ≤ ·) (l₁.map (fun s => s.cells.card)) (l₀.map (fun s => s.cells.card)) := by
  intro l₁ l₀ h
  induction h with
  | nil => exact List.Forall₂.nil
  | cons hab _ ih => exact List.Forall₂.cons (Finset.card_le_card hab) ih

theorem resolveScan_false_inv : ∀ (n i : ℕ) (ai : AI),
    (∀ b ∈ (resolveScan n i ai).2, b = false) →
    (resolveScan n i ai).1 = ai ∧
      ∀ j s, i ≤ j → j < i + n → ai.knowledge[j]? = some s → s.cells ≠ ∅
  | 0, i, ai, _ => ⟨rfl, fun j s _ hj _ => absurd hj (by omega)⟩
  | n + 1, i, ai, hall => by
    cases hg : ai.knowledge[i]? with
    | none =>
      rw [resolveScan_none hg]
      refine ⟨rfl, fun j s hij hjn hgj => ?_⟩
      have hlen : ai.knowledge.length ≤ i := List.getElem?_eq_none_iff.mp hg
      rw [List.getElem?_eq_none (by omega)] at hgj
      exact absurd hgj (by simp)
    | some s0 =>
      rw [resolveScan_some hg] at hall
      have hflag := hall _ (List.mem_cons_self _ _)
      have hrest : ∀ b ∈ (resolveScan n (i + 1)
          ((ai.markSafeSet s0.known_safes).markMineSet s0.known_mines)).2, b = false :=
        fun b hb => hall b (List.mem_cons_of_mem _ hb)
      simp only [Bool.or_eq_false_iff, decide_eq_false_iff_not, not_not] at hflag
      obtain ⟨⟨hfs, hms⟩, hcells⟩ := hflag
      have hmark : (ai.markSafeSet s0.known_safes).markMineSet s0.known_mines = ai := by
        rw [hfs, hms, markSafeSet_empty_ai, markMineSet_empty_ai]
      rw [hmark] at hrest
      have ih := resolveScan_false_inv n (i + 1) ai hrest
      constructor
      · rw [resolveScan_some hg, hmark]
        exact ih.1
      · intro j s hij hjn hgj
        rcases Nat.eq_or_lt_of_le hij with rfl | hlt
        · rw [hg] at hgj
          obtain rfl := Option.some.inj hgj
          exact hcells
        · exact ih.2 j s hlt (by omega) hgj

theorem queue_sublist : ∀ (l : List Sentence) (fl : List Bool),
    (((l.zip fl).filter (·.2)).map (·.1)).Sublist l
  | [], _ => by simp
  | _ :: _, [] => by simp
  | a :: l, b :: fl => by
    rw [List.zip_cons_cons, List.filter_cons]
    cases b with
    | false =>
      simp only [Bool.false_eq_true, if_false]
      exact (queue_sublist l fl).cons a
    | true =>
      simp only [if_true, List.map_cons]
      exact (queue_sublist l fl).cons₂ a

theorem queue_of_any : ∀ (l : List Sentence) (fl : List Bool), fl.length = l.length →
    fl.any id = true → (((l.zip fl).filter (·.2)).map (·.1)) ≠ []
  | _, [], _, hany => by simp at hany
  | [], _ :: _, hlen, _ => by simp at hlen
  | a :: l, b :: fl, hlen, hany => by
    rw [List.zip_cons_cons, List.filter_cons]
    cases b with
    | true => simp
    | false =>
      have hlen' : fl.length = l.length := by simpa using hlen
      have hany' : fl.any id = true := by simpa using hany
      simpa using queue_of_any l fl hlen' hany'

theorem foldl_erase_coe : ∀ (q l : List Sentence),
    (↑(q.foldl (fun l v => l.erase v) l) : Multiset Sentence)
      = (↑l : Multiset Sentence) - ↑q
  | [], l => by simp
  | v :: q, l => by
    rw [List.foldl_cons, foldl_erase_coe q (l.erase v)]
    rw [← Multiset.coe_erase, ← Multiset.sub_singleton, tsub_tsub]
    congr 1

theorem sizes_coe_map (l : List Sentence) :
    sizes l = (↑l : Multiset Sentence).map (fun s => s.cells.card) := by
  rw [sizes, Multiset.map_coe]

theorem resolvePhase_false {ai : AI} (h : (resolvePhase ai).2 = false) :
    (resolvePhase ai).1 = ai ∧ ∀ s ∈ ai.knowledge, s.cells ≠ ∅ := by
  have hall : ∀ b ∈ (resolveScan ai.knowledge.length 0 ai).2, b = false := by
    have hany : (resolveScan ai.knowledge.length 0 ai).2.any id = false := h
    intro b hb
    have := List.any_eq_false.mp hany b hb
    simpa using this
  have hinv := resolveScan_false_inv ai.knowledge.length 0 ai hall
  constructor
  · have hqnil : (((resolveScan ai.knowledge.length 0 ai).1.knowledge.zip
        (resolveScan ai.knowledge.length 0 ai).2).filter (·.2)) = [] := by
      rw [List.filter_eq_nil_iff]
      intro p hp
      have hb := (List.of_mem_zip hp).2
      rw [hall _ hb]
      simp
    rw [resolvePhase_def]
    simp only [hqnil, List.map_nil, List.foldl_nil]
    rw [hinv.1]
  · intro s hs
    rcases List.mem_iff_getElem?.mp hs with ⟨j, hj⟩
    have hjlen : j < ai.knowledge.length := by
      by_contra hn
      rw [List.getElem?_eq_none (by omega)] at hj
      exact absurd hj (by simp)
    exact hinv.2 j s (by omega) (by omega) hj

theorem measure_resolvePhase_strict {ai : AI} (h : (resolvePhase ai).2 = true) :
    toMeasure (sizes (resolvePhase ai).1.knowledge) < toMeasure (sizes ai.knowledge) := by
  have hany : (resolveScan ai.knowledge.length 0 ai).2.any id = true := h
  have hflen : (resolveScan ai.knowledge.length 0 ai).2.length
      = (resolveScan ai.knowledge.length 0 ai).1.knowledge.length := by
    rw [resolveScan_flags_length, resolveScan_length]
    omega
  have hqsub := queue_sublist (resolveScan ai.knowledge.length 0 ai).1.knowledge
    (resolveScan ai.knowledge.length 0 ai).2
  have hqne := queue_of_any (resolveScan ai.knowledge.length 0 ai).1.knowledge
    (resolveScan ai.knowledge.length 0 ai).2 hflen hany
  have hqle : (↑((((resolveScan ai.knowledge.length 0 ai).1.knowledge.zip
      (resolveScan ai.knowledge.length 0 ai).2).filter (·.2)).map (·.1)) : Multiset Sentence)
      ≤ ↑(resolveScan ai.knowledge.length 0 ai).1.knowledge :=
    Multiset.coe_le.mpr hqsub.subperm
  have hfinal : sizes (resolvePhase ai).1.knowledge
      = sizes (resolveScan ai.knowledge.length 0 ai).1.knowledge
        - (↑(((((resolveScan ai.knowledge.length 0 ai).1.knowledge.zip
            (resolveScan ai.knowledge.length 0 ai).2).filter (·.2)).map (·.1)).map
              (fun s => s.cells.card)) : Multiset ℕ) := by
    rw [resolvePhase_def]
    simp only []
    rw [sizes_coe_map, foldl_erase_coe, map_tsub _ hqle, ← sizes_coe_map]
    congr 1
  rcases split_of_forall₂ (forall₂_map_card (resolveScan_shrink ai.knowledge.length 0 ai))
    with ⟨X, Y, Z, h0, h1, hYZ⟩
  have h1' : sizes (resolveScan ai.knowledge.length 0 ai).1.knowledge = X + Y := h1
  have h0' : sizes ai.knowledge = X + Z := h0
  have hszq_ne : (↑((((((resolveScan ai.knowledge.length 0 ai).1.knowledge.zip
      (resolveScan ai.knowledge.length 0 ai).2).filter (·.2)).map (·.1)).map
        (fun s => s.cells.card))) : Multiset ℕ) ≠ 0 := by
    intro h0m
    exact hqne (by simpa using (Multiset.coe_eq_zero _).mp h0m)
  have hszq_le : (↑((((((resolveScan ai.knowledge.length 0 ai).1.knowledge.zip
      (resolveScan ai.knowledge.length 0 ai).2).filter (·.2)).map (·.1)).map
        (fun s => s.cells.card))) : Multiset ℕ) ≤ X + Y := by
    rw [← h1', sizes_coe_map, ← Multiset.map_coe]
    exact Multiset.map_le_map hqle
  rw [hfinal, h1', h0']
  exact lex_lt_dm_sub hszq_le hYZ (Or.inl hszq_ne)

/-! ### The subset pass: measure accounting -/

theorem filter_bind_multiset {α β : Type} (p : β → Prop) [DecidablePred p]
    (m : Multiset α) (F : α → Multiset β) :
    (m.bind F).filter p = m.bind (fun a => (F a).filter p) := by
  induction m using Multiset.induction_on with
  | empty => simp
  | cons a s ih => simp [Multiset.cons_bind, Multiset.filter_add, ih]

theorem pair_eq_or_lt {P : Finset Cell} {l : List Sentence}
    (hsound : ∀ s ∈ l, SoundS P s) {p : Sentence × Sentence} (hp : p ∈ subsetPairs l) :
    p.1 = p.2 ∨ p.1.cells.card < p.2.cells.card := by
  rcases mem_subsetPairs hp with ⟨s, hs, s2, hs2, hcond, rfl⟩
  by_cases he : s.cells = ∅
  · left
    have hc0 : s.count = 0 := soundS_empty_count (hsound s hs) he
    show deriveSentence s s2 = s2
    rw [deriveSentence, he, hc0, Finset.sdiff_empty, sub_zero]
  · right
    show (deriveSentence s s2).cells.card < s2.cells.card
    rw [deriveSentence]
    simp only
    have hne : s.cells.Nonempty := Finset.nonempty_iff_ne_empty.mpr he
    rw [Finset.card_sdiff hcond.2]
    have hpos : 0 < s.cells.card := Finset.card_pos.mpr hne
    have hle : s.cells.card ≤ s2.cells.card := Finset.card_le_card hcond.2
    omega

theorem eq_pair_empty {l : List Sentence} {p : Sentence × Sentence}
    (hp : p ∈ subsetPairs l) (heq : p.1 = p.2) : ∃ s ∈ l, s.cells = ∅ := by
  rcases mem_subsetPairs hp with ⟨s, hs, s2, hs2, hcond, rfl⟩
  refine ⟨s, hs, ?_⟩
  have hcells : s2.cells \ s.cells = s2.cells := congrArg Sentence.cells heq
  have hdisj := Finset.sdiff_eq_self_iff_disjoint.mp hcells
  exact Finset.eq_empty_iff_forall_not_mem.mpr
    (fun x hx => (Finset.disjoint_right.mp hdisj hx) (hcond.2 hx))

theorem count_snd_filter_ne (s₀ v : Sentence)
    (hcond : s₀.cells ≠ v.cells ∧ s₀.cells ⊆ v.cells)
    (hne : deriveSentence s₀ v ≠ v) :
    ∀ m : List Sentence,
      (((↑(m.filterMap (fun s2 =>
          if s₀.cells ≠ s2.cells ∧ s₀.cells ⊆ s2.cells then
            some (deriveSentence s₀ s2, s2) else none)) :
            Multiset (Sentence × Sentence)).filter
          (fun p => ¬ p.1 = p.2)).map Prod.snd).count v
        = (↑m : Multiset Sentence).count v
  | [] => by simp
  | t :: m => by
    have ih := count_snd_filter_ne s₀ v hcond hne m
    rw [List.filterMap_cons]
    by_cases hc : s₀.cells ≠ t.cells ∧ s₀.cells ⊆ t.cells
    · rw [if_pos hc, ← Multiset.cons_coe, Multiset.filter_cons]
      by_cases hd : deriveSentence s₀ t = t
      · rw [if_neg (by simpa using hd)]
        simp only [zero_add]
        rw [ih, ← Multiset.cons_coe, Multiset.count_cons]
        have hvt : ¬ v = t := by
          intro hvt
          subst hvt
          exact hne hd
        rw [if_neg hvt, add_zero]
      · rw [if_pos (by simpa using hd)]
        rw [Multiset.map_add, Multiset.map_singleton, Multiset.count_add,
          Multiset.count_singleton, ih, ← Multiset.cons_coe, Multiset.count_cons]
        rw [show ((deriveSentence s₀ t, t).2) = t from rfl]
        omega
    · rw [if_neg hc]
      rw [ih, ← Multiset.cons_coe, Multiset.count_cons]
      have hvt : ¬ v = t := by
        intro hvt
        subst hvt
        exact hc hcond
      rw [if_neg hvt, add_zero]

theorem subsetPairs_coe_bind (l : List Sentence) :
    (↑(subsetPairs l) : Multiset (Sentence × Sentence))
      = (↑l : Multiset Sentence).bind (fun s => ↑(l.filterMap (fun s2 =>
          if s.cells ≠ s2.cells ∧ s.cells ⊆ s2.cells then
            some (deriveSentence s s2, s2) else none))) := by
  rw [subsetPairs]
  exact (Multiset.coe_bind _ _).symm

theorem count_QN_ge {l : List Sentence} {v : Sentence} (hf : firedNe l v) :
    (↑l : Multiset Sentence).count v ≤
      (((↑(subsetPairs l) : Multiset (Sentence × Sentence)).filter
        (fun p => ¬ p.1 = p.2)).map Prod.snd).count v := by
  obtain ⟨s, hs, hcond, hne⟩ := hf
  rw [subsetPairs_coe_bind, filter_bind_multiset, Multiset.map_bind, Multiset.count_bind]
  have hterm := count_snd_filter_ne s v hcond hne l
  have hmem : (↑l : Multiset Sentence).count v ∈
      Multiset.map (fun s' =>
        (((↑(l.filterMap (fun s2 =>
            if s'.cells ≠ s2.cells ∧ s'.cells ⊆ s2.cells then
              some (deriveSentence s' s2, s2) else none)) :
              Multiset (Sentence × Sentence)).filter
            (fun p => ¬ p.1 = p.2)).map Prod.snd).count v) (↑l : Multiset Sentence) := by
    rw [← hterm]
    exact Multiset.mem_map_of_mem _ (Multiset.mem_coe.mpr hs)
  exact Multiset.single_le_sum (fun x _ => Nat.zero_le x) _ hmem

theorem count_QN_zero {l : List Sentence} {v : Sentence} (hf : ¬ firedNe l v) :
    (((↑(subsetPairs l) : Multiset (Sentence × Sentence)).filter
      (fun p => ¬ p.1 = p.2)).map Prod.snd).count v = 0 := by
  rw [Multiset.count_eq_zero]
  intro hmem
  rcases Multiset.mem_map.mp hmem with ⟨p, hp, hsnd⟩
  rcases Multiset.mem_filter.mp hp with ⟨hpm, hpne⟩
  rcases mem_subsetPairs (Multiset.mem_coe.mp hpm) with ⟨s, hs, s2, hs2, hcond, rfl⟩
  have hs2v : s2 = v := hsnd
  subst hs2v
  exact hf ⟨s, hs, hcond, hpne⟩

theorem DN_parent {P : Finset Cell} {l : List Sentence}
    (hsound : ∀ s ∈ l, SoundS P s) {v : Sentence}
    (hmem : v ∈ (((↑(subsetPairs l) : Multiset (Sentence × Sentence)).filter
      (fun p => ¬ p.1 = p.2)).map Prod.fst)) :
    ∃ w ∈ l, firedNe l w ∧ v.cells.card < w.cells.card := by
  rcases Multiset.mem_map.mp hmem with ⟨p, hp, hfst⟩
  rcases Multiset.mem_filter.mp hp with ⟨hpm, hpne⟩
  have hpl : p ∈ subsetPairs l := Multiset.mem_coe.mp hpm
  have hstruct := mem_subsetPairs hpl
  rcases hstruct with ⟨s, hs, s2, hs2, hcond, rfl⟩
  refine ⟨s2, hs2, ⟨s, hs, hcond, hpne⟩, ?_⟩
  rcases pair_eq_or_lt hsound hpl with he | hlt
  · exact absurd he hpne
  · rw [← hfst]
    exact hlt

theorem subsetPhase_knowledge_eq (ai : AI) :
    (↑(subsetPhase ai).1.knowledge : Multiset Sentence)
      = ((↑ai.knowledge : Multiset Sentence)
          + ((↑(subsetPairs ai.knowledge) : Multiset (Sentence × Sentence)).filter
              (fun p => ¬ p.1 = p.2)).map Prod.fst)
        - ((↑(subsetPairs ai.knowledge) : Multiset (Sentence × Sentence)).filter
            (fun p => ¬ p.1 = p.2)).map Prod.snd := by
  rw [subsetPhase_def]
  simp only []
  rw [foldl_erase_coe, ← Multiset.coe_add]
  rw [show ((↑((subsetPairs ai.knowledge).map Prod.fst) : Multiset Sentence))
      = (↑(subsetPairs ai.knowledge) : Multiset (Sentence × Sentence)).map Prod.fst from
    (Multiset.map_coe _ _).symm]
  rw [show ((↑((subsetPairs ai.knowledge).map Prod.snd) : Multiset Sentence))
      = (↑(subsetPairs ai.knowledge) : Multiset (Sentence × Sentence)).map Prod.snd from
    (Multiset.map_coe _ _).symm]
  have hsplitM := Multiset.filter_add_not (fun p : Sentence × Sentence => p.1 = p.2)
    (↑(subsetPairs ai.knowledge) : Multiset (Sentence × Sentence))
  have hDE : ((↑(subsetPairs ai.knowledge) : Multiset (Sentence × Sentence)).filter
        (fun p => p.1 = p.2)).map Prod.fst
      = ((↑(subsetPairs ai.knowledge) : Multiset (Sentence × Sentence)).filter
        (fun p => p.1 = p.2)).map Prod.snd :=
    Multiset.map_congr rfl (fun p hp => (Multiset.mem_filter.mp hp).2)
  conv_lhs => rw [← hsplitM]
  rw [Multiset.map_add, Multiset.map_add, hDE]
  have hre1 : (↑ai.knowledge : Multiset Sentence)
        + (((↑(subsetPairs ai.knowledge) : Multiset (Sentence × Sentence)).filter
            (fun p => p.1 = p.2)).map Prod.snd
          + ((↑(subsetPairs ai.knowledge) : Multiset (Sentence × Sentence)).filter
            (fun p => ¬ p.1 = p.2)).map Prod.fst)
      = ((↑ai.knowledge : Multiset Sentence)
          + ((↑(subsetPairs ai.knowledge) : Multiset (Sentence × Sentence)).filter
            (fun p => ¬ p.1 = p.2)).map Prod.fst)
        + ((↑(subsetPairs ai.knowledge) : Multiset (Sentence × Sentence)).filter
            (fun p => p.1 = p.2)).map Prod.snd := by
    rw [add_assoc, add_comm
      (((↑(subsetPairs ai.knowledge) : Multiset (Sentence × Sentence)).filter
        (fun p => p.1 = p.2)).map Prod.snd)]
  have hre2 : ((↑(subsetPairs ai.knowledge) : Multiset (Sentence × Sentence)).filter
          (fun p => p.1 = p.2)).map Prod.snd
        + ((↑(subsetPairs ai.knowledge) : Multiset (Sentence × Sentence)).filter
          (fun p => ¬ p.1 = p.2)).map Prod.snd
      = ((↑(subsetPairs ai.knowledge) : Multiset (Sentence × Sentence)).filter
          (fun p => ¬ p.1 = p.2)).map Prod.snd
        + ((↑(subsetPairs ai.knowledge) : Multiset (Sentence × Sentence)).filter
          (fun p => p.1 = p.2)).map Prod.snd := add_comm _ _
  rw [hre1, hre2, add_tsub_add_eq_tsub_right]

theorem measure_subsetPhase_eq {ai : AI}
    (h : ∀ p ∈ subsetPairs ai.knowledge, p.1 = p.2) :
    sizes (subsetPhase ai).1.knowledge = sizes ai.knowledge := by
  have hN : ((↑(subsetPairs ai.knowledge) : Multiset (Sentence × Sentence)).filter
      (fun p => ¬ p.1 = p.2)) = 0 := by
    rw [Multiset.filter_eq_nil]
    intro p hp
    exact not_not_intro (h p (Multiset.mem_coe.mp hp))
  rw [sizes_coe_map, sizes_coe_map, subsetPhase_knowledge_eq, hN]
  simp

theorem dm_construction (V₀ DN QN : Multiset Sentence) (fired : Sentence → Prop)
    [DecidablePred fired]
    (hq0 : ∀ v, ¬ fired v → QN.count v = 0)
    (hqge : ∀ v, fired v → V₀.count v ≤ QN.count v)
    (hpar : ∀ v ∈ DN, ∃ w, w ∈ V₀ ∧ fired w ∧ v.cells.card < w.cells.card)
    (hZne : ∃ w, w ∈ V₀ ∧ fired w) :
    toMeasure (((V₀ + DN) - QN).map (fun s => s.cells.card))
      < toMeasure (V₀.map (fun s => s.cells.card)) := by
  have hXle : V₀.filter (fun v => ¬ fired v) ≤ (V₀ + DN) - QN := by
    rw [Multiset.le_iff_count]
    intro v
    rw [Multiset.count_filter, Multiset.count_sub, Multiset.count_add]
    by_cases hf : fired v
    · rw [if_neg (not_not_intro hf)]
      exact Nat.zero_le _
    · rw [if_pos hf, hq0 v hf]
      omega
  have hXYsplit : (V₀ + DN) - QN
      = V₀.filter (fun v => ¬ fired v)
        + (((V₀ + DN) - QN) - V₀.filter (fun v => ¬ fired v)) :=
    (add_tsub_cancel_of_le hXle).symm
  have hXZsplit : V₀ = V₀.filter (fun v => ¬ fired v) + V₀.filter fired := by
    rw [add_comm]
    exact (Multiset.filter_add_not fired V₀).symm
  have hZne' : V₀.filter fired ≠ 0 := by
    rcases hZne with ⟨w, hw, hfw⟩
    intro h0
    have hmem : w ∈ V₀.filter fired := Multiset.mem_filter.mpr ⟨hw, hfw⟩
    rw [h0] at hmem
    exact Multiset.not_mem_zero w hmem
  have hY : ∀ y ∈ ((V₀ + DN) - QN) - V₀.filter (fun v => ¬ fired v),
      ∃ z ∈ V₀.filter fired, y.cells.card < z.cells.card := by
    intro y hy
    have hcount := Multiset.count_pos.mpr hy
    rw [Multiset.count_sub, Multiset.count_sub, Multiset.count_add,
      Multiset.count_filter] at hcount
    have hdnpos : 0 < DN.count y := by
      by_cases hf : fired y
      · rw [if_neg (not_not_intro hf)] at hcount
        have := hqge y hf
        omega
      · rw [if_pos hf] at hcount
        have := hq0 y hf
        omega
    rcases hpar y (Multiset.count_pos.mp hdnpos) with ⟨w, hwV, hwf, hlt⟩
    exact ⟨w, Multiset.mem_filter.mpr ⟨hwV, hwf⟩, hlt⟩
  conv_lhs => rw [hXYsplit]
  conv_rhs => rw [hXZsplit]
  rw [Multiset.map_add, Multiset.map_add]
  apply lex_lt_of_dm
  · rw [Ne, Multiset.map_eq_zero]
    exact hZne'
  · intro y' hy'
    rcases Multiset.mem_map.mp hy' with ⟨y, hy, rfl⟩
    rcases hY y hy with ⟨z, hz, hlt⟩
    exact ⟨z.cells.card, Multiset.mem_map_of_mem _ hz, hlt⟩

theorem measure_subsetPhase_lt {P : Finset Cell} {ai : AI}
    (hsound : ∀ s ∈ ai.knowledge, SoundS P s)
    (hex : ∃ p ∈ subsetPairs ai.knowledge, ¬ p.1 = p.2) :
    toMeasure (sizes (subsetPhase ai).1.knowledge) < toMeasure (sizes ai.knowledge) := by
  rw [sizes_coe_map, sizes_coe_map, subsetPhase_knowledge_eq]
  apply dm_construction _ _ _ (firedNe ai.knowledge)
  · exact fun v hf => count_QN_zero hf
  · exact fun v hf => count_QN_ge hf
  · intro v hv
    rcases DN_parent hsound hv with ⟨w, hw, hwf, hlt⟩
    exact ⟨w, Multiset.mem_coe.mpr hw, hwf, hlt⟩
  · rcases hex with ⟨p, hp, hpne⟩
    rcases mem_subsetPairs hp with ⟨s, hs, s2, hs2, hcond, rfl⟩
    exact ⟨s2, Multiset.mem_coe.mpr hs2, ⟨s, hs, hcond, hpne⟩⟩

theorem measure_passStep {P : Finset Cell} {ai : AI} (hsound : Sound P ai)
    (hch : (passStep ai).2 = true) :
    toMeasure (sizes (passStep ai).1.knowledge) < toMeasure (sizes ai.knowledge) := by
  have hsound1 : ∀ s ∈ (resolvePhase ai).1.knowledge, SoundS P s :=
    (sound_resolvePhase hsound).1
  by_cases hA : (resolvePhase ai).2 = true
  · have h1 := measure_resolvePhase_strict hA
    by_cases hB : ∃ p ∈ subsetPairs (resolvePhase ai).1.knowledge, ¬ p.1 = p.2
    · exact lt_trans (measure_subsetPhase_lt hsound1 hB) h1
    · push_neg at hB
      have heq := measure_subsetPhase_eq hB
      show toMeasure (sizes (subsetPhase (resolvePhase ai).1).1.knowledge)
        < toMeasure (sizes ai.knowledge)
      rw [heq]
      exact h1
  · have hA' : (resolvePhase ai).2 = false := by
      cases hAB : (resolvePhase ai).2
      · rfl
      · exact absurd hAB hA
    have hid := resolvePhase_false hA'
    have hBfl : (subsetPhase (resolvePhase ai).1).2 = true := by
      have hps : (passStep ai).2
          = ((resolvePhase ai).2 || (subsetPhase (resolvePhase ai).1).2) := rfl
      rw [hps, hA'] at hch
      simpa using hch
    have hpne : subsetPairs (resolvePhase ai).1.knowledge ≠ [] := by
      intro h0
      rw [subsetPhase_def] at hBfl
      simp [h0] at hBfl
    have hex : ∃ p ∈ subsetPairs (resolvePhase ai).1.knowledge, ¬ p.1 = p.2 := by
      rcases List.exists_mem_of_ne_nil _ hpne with ⟨p, hp⟩
      refine ⟨p, hp, ?_⟩
      intro heqp
      rcases eq_pair_empty hp heqp with ⟨s, hs, hempty⟩
      rw [hid.1] at hs
      exact hid.2 s hs hempty
    have hlt := measure_subsetPhase_lt hsound1 hex
    show toMeasure (sizes (subsetPhase (resolvePhase ai).1).1.knowledge)
      < toMeasure (sizes ai.knowledge)
    have hrw : sizes (resolvePhase ai).1.knowledge = sizes ai.knowledge := by
      rw [hid.1]
    rw [← hrw]
    exact hlt

/-! ### Termination of the deduction loop and of add_knowledge -/

theorem sound_terminates {P : Finset Cell} : ∀ (ai : AI), Sound P ai →
    ∃ fuel ai', deductionLoop fuel ai = some ai' := by
  have hwf : WellFounded (fun a b : AI =>
      toMeasure (sizes a.knowledge) < toMeasure (sizes b.knowledge)) := by
    have h0 := InvImage.wf (fun ai : AI => toMeasure (sizes ai.knowledge))
      (wellFounded_lt :
        WellFounded ((· < ·) : Lex (ℕᵒᵈ →₀ ℕ) → Lex (ℕᵒᵈ →₀ ℕ) → Prop))
    exact h0
  intro ai
  induction ai using hwf.induction with
  | _ ai ih =>
    intro hsound
    by_cases hch : (passStep ai).2 = true
    · rcases ih (passStep ai).1 (measure_passStep hsound hch) (sound_passStep hsound)
        with ⟨fuel, ai', h⟩
      exact ⟨fuel + 1, ai', by simp [deductionLoop, hch, h]⟩
    · refine ⟨1, (passStep ai).1, ?_⟩
      have hc' : (passStep ai).2 = false := by
        cases h : (passStep ai).2
        · rfl
        · exact absurd h hch
      simp [deductionLoop, hc']

theorem deductionLoop_mono : ∀ (f f' : ℕ), f ≤ f' → ∀ (ai ai' : AI),
    deductionLoop f ai = some ai' → deductionLoop f' ai = some ai'
  | 0, _, _, _, _, h => absurd h (by simp [deductionLoop])
  | _ + 1, 0, hle, _, _, _ => absurd hle (by omega)
  | f + 1, f' + 1, hle, ai, ai', h => by
    simp only [deductionLoop] at h ⊢
    by_cases hch : (passStep ai).2
    · rw [if_pos hch] at h ⊢
      exact deductionLoop_mono f f' (by omega) _ _ h
    · rw [if_neg hch] at h ⊢
      exact h

theorem runHints_mono : ∀ (hints : List (Cell × ℤ)) (f f' : ℕ), f ≤ f' → ∀ (ai ai' : AI),
    runHints f hints ai = some ai' → runHints f' hints ai = some ai'
  | [], _, _, _, _, _, h => h
  | (c, n) :: rest, f, f', hle, ai, ai', h => by
    rw [runHints] at h ⊢
    cases hk : addKnowledge f ai c n with
    | none => rw [hk] at h; exact absurd h (by simp)
    | some ai1 =>
      rw [hk] at h
      have hk' : addKnowledge f' ai c n = some ai1 :=
        deductionLoop_mono f f' hle (addKnowledgeInsert ai c n) ai1
          (show deductionLoop f (addKnowledgeInsert ai c n) = some ai1 from hk)
      rw [hk']
      exact runHints_mono rest f f' hle ai1 ai' h

theorem sound_addKnowledge_terminates {P : Finset Cell} {ai : AI} {c : Cell} {n : ℤ}
    (hsound : Sound P ai) (hv : ValidHint P ai.height ai.width c n) :
    ∃ fuel ai', addKnowledge fuel ai c n = some ai' :=
  sound_terminates (addKnowledgeInsert ai c n) (sound_addKnowledgeInsert hsound hv)

theorem sound_runHints_terminates : ∀ (hints : List (Cell × ℤ)) {P : Finset Cell} {ai : AI},
    Sound P ai → (∀ p ∈ hints, ValidHint P ai.height ai.width p.1 p.2) →
    ∃ fuel ai', runHints fuel hints ai = some ai'
  | [], _, ai, _, _ => ⟨0, ai, rfl⟩
  | (c, n) :: rest, P, ai, hsound, hv => by
    rcases sound_addKnowledge_terminates hsound (hv (c, n) (List.mem_cons_self _ _))
      with ⟨f1, ai1, h1⟩
    have hs1 := sound_addKnowledge hsound (hv (c, n) (List.mem_cons_self _ _)) h1
    have hdims := addKnowledge_dims h1
    have hv1 : ∀ p ∈ rest, ValidHint P ai1.height ai1.width p.1 p.2 := by
      intro p hp
      rw [hdims.1, hdims.2]
      exact hv p (List.mem_cons_of_mem _ hp)
    rcases sound_runHints_terminates rest hs1 hv1 with ⟨f2, ai2, h2⟩
    refine ⟨max f1 f2, ai2, ?_⟩
    rw [runHints]
    have h1' : addKnowledge (max f1 f2) ai c n = some ai1 :=
      deductionLoop_mono f1 (max f1 f2) (le_max_left _ _) (addKnowledgeInsert ai c n) ai1
        (show deductionLoop f1 (addKnowledgeInsert ai c n) = some ai1 from h1)
    rw [h1']
    exact runHints_mono rest f2 (max f1 f2) (le_max_right _ _) ai1 ai2 h2

/-- C1: for every finite grid and every sequence of valid hints (each an
in-bounds, non-mine cell with the count produced by a consistent mine
placement), every call to `add_knowledge` terminates: some finite fuel makes
the whole run return.  The deduction loop's passes strictly decrease the
multiset of sentence sizes in the reverse-lexicographic (Dershowitz–Manna)
well-founded order, using the soundness invariant maintained by valid hints. -/
theorem claim1_termination (P : Finset Cell) (h w : ℤ) (hints : List (Cell × ℤ))
    (hv : ∀ p ∈ hints, ValidHint P h w p.1 p.2) :
    ∃ fuel ai', runHints fuel hints (AI.init h w) = some ai' :=
  sound_runHints_terminates hints (sound_init P h w) hv

/-- Witness for C1: the 3×3 grid with a mine at `(2,2)` and the hint
`((0,0), 0)`. -/
theorem claim1_termination_witness :
    ∃ fuel ai', runHints fuel [((0,0), 0)] (AI.init 3 3) = some ai' :=
  claim1_termination {(2,2)} 3 3 [((0,0), 0)]
    (by
      intro p hp
      rcases List.mem_singleton.mp hp with rfl
      exact ⟨by decide, by decide, by decide⟩)

end MinesweeperAI
